import Mathlib

/-!
Verification of the mimikry versioned build pipeline.

This file gives a shallow embedding, in Lean 4, of the core of the
mimikry repository (the `main` package in `src/unnamed/part_000` and the
docker build engine in `src/pkg/docker`), and proves or refutes the
behavioural claims made about it.

Conventions used throughout:
- Go strings are Lean `String`s; byte-level details are ignored where they
  do not matter (documented per definition).
- `time.Time` values are modelled as `Nat` instants (`0` is the zero time;
  `After` is `>`; the JSON codec for times is injective, so a time-valued
  leaf in the JSON model stands for its RFC3339 rendering).
- Fallible Go functions become `Except`/`Option`-valued Lean functions.
-/

namespace Mimikry

/-! ### Go string helpers -/

/-- Go's `unicode.IsSpace`: the White_Space code points. -/
def goIsSpace (c : Char) : Bool :=
  (0x09 ≤ c.toNat && c.toNat ≤ 0x0D) || c.toNat = 0x20 || c.toNat = 0x85 ||
  c.toNat = 0xA0 || c.toNat = 0x1680 || (0x2000 ≤ c.toNat && c.toNat ≤ 0x200A) ||
  c.toNat = 0x2028 || c.toNat = 0x2029 || c.toNat = 0x202F || c.toNat = 0x205F ||
  c.toNat = 0x3000

/-- Go's `strings.TrimSpace`: trim `unicode.IsSpace` runes from both ends. -/
def goTrimSpace (s : String) : String :=
  ⟨((s.data.dropWhile goIsSpace).reverse.dropWhile goIsSpace).reverse⟩

/-- The tag-shape pattern of `src/unnamed/part_000` line 65,
`patternImageTag = ^\d+(\.\d+)?(\.\d+)?$`: one to three dot-separated
nonempty runs of ASCII digits. -/
def patternImageTag (s : String) : Bool :=
  let parts := s.data.splitOn '.'
  decide (1 ≤ parts.length) && decide (parts.length ≤ 3) &&
    parts.all (fun p => (!p.isEmpty) && p.all Char.isDigit)

/-- `stdSkipTagFunc` of `src/unnamed/part_000` lines 67-69: skip a tag that
does not match `patternImageTag`. -/
def stdSkipTagFunc (tag : String) : Bool :=
  ! patternImageTag tag

/-! ### The Masterminds semver v3 version model

The semver library is a vendored dependency, not code under `src/`; the
definitions below model exactly the slices of its behaviour the pipeline
exercises (numeric `major(.minor(.patch))` tags; lexicographic numeric
comparison; pre-release/build-metadata forms never reach the parser because
every call site first filters by `patternImageTag`). -/

/-- Decimal value of a digit run. -/
def digitsToNat (p : List Char) : Nat :=
  p.foldl (fun n c => 10 * n + (c.toNat - 48)) 0

/-- Go's `strconv.ParseUint(s, 10, 64)` on a component: nonempty, all digits,
and the value must fit in 64 bits, otherwise an error (`none`). -/
def parseUint64 (p : List Char) : Option Nat :=
  if p.isEmpty then none
  else if ! p.all Char.isDigit then none
  else
    let n := digitsToNat p
    if n < 2 ^ 64 then some n else none

/-- A parsed semantic version: numeric components plus the original text the
components were parsed from (`Version.Original()`). -/
structure SemVer where
  major : Nat
  minor : Nat
  patch : Nat
  original : String
deriving DecidableEq, Repr, Inhabited

/-- Model of semver v3 `NewVersion` restricted to the numeric core grammar
`v?DIGITS(.DIGITS)?(.DIGITS)?` (no pre-release/metadata: every caller in the
pipeline guards with `patternImageTag` first, which admits only this shape).
Each component is parsed with `ParseUint(_, 10, 64)`; overflow is an error. -/
def semverNewVersion (s : String) : Option SemVer :=
  let core := if s.data.head? = some 'v' then s.data.tail else s.data
  match core.splitOn '.' with
  | [a] => (parseUint64 a).map fun ma => ⟨ma, 0, 0, s⟩
  | [a, b] => do
      let ma ← parseUint64 a
      let mi ← parseUint64 b
      pure ⟨ma, mi, 0, s⟩
  | [a, b, c] => do
      let ma ← parseUint64 a
      let mi ← parseUint64 b
      let pa ← parseUint64 c
      pure ⟨ma, mi, pa, s⟩
  | _ => none

/-- semver v3 `Version.LessThan` (`Compare < 0`) for versions without
pre-release parts: lexicographic comparison of the numeric components.
Equal-precision: the original text plays no role, so a version parsed from
"12" compares equal to one parsed from "12.0". -/
def semverLess (a b : SemVer) : Bool :=
  decide (a.major < b.major) ||
    (decide (a.major = b.major) &&
      (decide (a.minor < b.minor) ||
        (decide (a.minor = b.minor) && decide (a.patch < b.patch))))

/-- The comparison key of a version: comparison ignores `original`. -/
def semverKey (v : SemVer) : Nat × Nat × Nat :=
  (v.major, v.minor, v.patch)

/-- Modelled from the spec: the semver v3 constraint parser is library code
not under `src/`. Per the spec's edge-case policy (§4.2) an empty constraint
expression parses successfully to the always-true constraint; the parse
outcome for non-empty expressions is not needed by any claim and is left
unmodelled (`none` = "outside the model", not "the parser fails"). -/
def semverNewConstraint (s : String) : Option (Except Unit (SemVer → Bool)) :=
  if s = "" then some (.ok fun _ => true) else none

/-! ### The tag cache (`imageTags`, `loadTagCache`, `saveTagCache`)

`src/unnamed/part_000` lines 46-51 and 72-130. The JSON layer
(`encoding/json`) is modelled at the value level: a file's bytes either
parse as one JSON value or they do not, and Go's struct decoding of that
value is mirrored field by field (unknown fields ignored, missing fields
keep their zero value, `null` leaves the target at its zero value, a type
mismatch is a decode error). -/

/-- A JSON value. `jtime t` stands for the RFC3339 string Go's `time.Time`
marshals to; that codec is injective on instants, so the instant itself is
kept as the leaf. -/
inductive JVal where
  | jnull : JVal
  | jstr : String → JVal
  | jtime : Nat → JVal
  | jarr : List JVal → JVal
  | jobj : List (String × JVal) → JVal
deriving Repr, Inhabited

/-- The `imageTags` struct of `src/unnamed/part_000` lines 46-51. -/
structure ImageTags where
  image : String
  modified : Nat
  tags : List String
deriving DecidableEq, Repr, Inhabited

/-- `json.Encoder.Encode` on an `imageTags` value (the three exported
fields under their JSON tags). -/
def encodeImageTags (c : ImageTags) : JVal :=
  .jobj [("image", .jstr c.image), ("modified", .jtime c.modified),
         ("tags", .jarr (c.tags.map .jstr))]

/-- Field lookup during Go struct decoding: with duplicate keys the last
occurrence wins. -/
def jsonField (k : String) (fields : List (String × JVal)) : Option JVal :=
  (fields.filter (fun f => f.1 = k)).getLast? |>.map (·.2)

/-- Decode a JSON array into a `[]string` (element type mismatch is an
error; `null` elements decode to the zero string, as Go does). -/
def decodeStrList : List JVal → Option (List String)
  | [] => some []
  | .jstr s :: rest => (decodeStrList rest).map (s :: ·)
  | .jnull :: rest => (decodeStrList rest).map ("" :: ·)
  | _ => none

/-- Go's `json.Decoder.Decode` into an `imageTags` struct. -/
def decodeImageTags (j : JVal) : Option ImageTags := do
  match j with
  | .jobj fields =>
    let image ← match jsonField "image" fields with
      | none => some ""
      | some (.jstr s) => some s
      | some .jnull => some ""
      | some _ => none
    let modified ← match jsonField "modified" fields with
      | none => some 0
      | some (.jtime t) => some t
      | some .jnull => some 0
      | some _ => none
    let tags ← match jsonField "tags" fields with
      | none => some []
      | some .jnull => some []
      | some (.jarr xs) => decodeStrList xs
      | some _ => none
    pure ⟨image, modified, tags⟩
  | _ => none

mutual

/-- Byte length of the rendered JSON value. Only its positivity matters to
the claims (string escaping is ignored). -/
def jsonSize : JVal → Nat
  | .jnull => 4
  | .jstr s => s.length + 2
  | .jtime _ => 37
  | .jarr xs => 2 + jsonSizeList xs
  | .jobj fs => 2 + jsonSizeFields fs

/-- Summed byte length of JSON array elements. -/
def jsonSizeList : List JVal → Nat
  | [] => 0
  | x :: xs => jsonSize x + 1 + jsonSizeList xs

/-- Summed byte length of JSON object fields. -/
def jsonSizeFields : List (String × JVal) → Nat
  | [] => 0
  | f :: fs => f.1.length + 4 + jsonSize f.2 + jsonSizeFields fs

end

/-- A tag cache file on disk: its size from `Stat`, its bytes parsed as one
JSON value (`none` when the bytes are not valid JSON), and its modification
time. A missing file is represented by `Option.none` at the call sites. -/
structure CacheFile where
  size : Nat
  content : Option JVal
  modTime : Nat
deriving Inhabited

/-- The error outcomes of `loadTagCache`. -/
inductive LoadErr where
  | noTagCache : LoadErr
  | invalidTagCache : LoadErr
  | decodeErr : LoadErr
deriving DecidableEq, Repr

/-- `loadTagCache` of `src/unnamed/part_000` lines 72-109: a missing file
and a zero-size file yield `ErrNoTagCache`; undecodable bytes are a decode
error; a decoded cache with an empty image name or no tags is
`ErrInvalidTagCache`; finally the timestamp is bumped to the file's
modification time when that is non-zero and later. -/
def loadTagCache (f : Option CacheFile) : Except LoadErr ImageTags :=
  match f with
  | none => .error .noTagCache
  | some file =>
    if file.size = 0 then .error .noTagCache
    else match file.content with
      | none => .error .decodeErr
      | some j =>
        match decodeImageTags j with
        | none => .error .decodeErr
        | some cache =>
          if cache.image = "" || cache.tags.isEmpty then .error .invalidTagCache
          else
            .ok { cache with
                  modified :=
                    if file.modTime ≠ 0 ∧ cache.modified < file.modTime
                    then file.modTime else cache.modified }

/-- `saveTagCache` of `src/unnamed/part_000` lines 111-130: the written file
holds the JSON encoding of the cache; `writeTime` is the resulting file
modification time (directory-creation and I/O failures are outside the
round-trip claims). -/
def saveTagCache (c : ImageTags) (writeTime : Nat) : CacheFile :=
  { size := jsonSize (encodeImageTags c)
    content := some (encodeImageTags c)
    modTime := writeTime }

/-- The tag-loading stage of `realMain` (`src/unnamed/part_000` lines
314-338): try the cache; on any load failure (only logged) fall back to the
network fetch, whose failure aborts the run; a fresh cache records the
source repository, the current time and the fetched tags. -/
def loadTagsStage (f : Option CacheFile) (now : Nat) (srcRepo : String)
    (network : Except String (List String)) : Except String ImageTags :=
  match loadTagCache f with
  | .ok cache => .ok cache
  | .error _ =>
    match network with
    | .error e => .error ("load remote tags: " ++ e)
    | .ok tagList => .ok ⟨srcRepo, now, tagList⟩

/-! ### Paths (`path/filepath` on Unix)

On Unix `filepath.FromSlash` is the identity and `filepath.Clean` is the
classic component normalisation: drop empty and `.` components, resolve
`..` against a preceding component, keep leading `..`s on relative paths,
drop them at the root, `""` cleans to `"."`. -/

/-- Process the slash-separated components of a path, `acc` holding the
already-emitted components in reverse. -/
def cleanComponents (rooted : Bool) : List String → List String → List String
  | acc, [] => acc.reverse
  | acc, p :: ps =>
    if p = "" || p = "." then cleanComponents rooted acc ps
    else if p = ".." then
      match acc with
      | a :: rest => if a = ".." then cleanComponents rooted (p :: acc) ps
                     else cleanComponents rooted rest ps
      | [] => if rooted then cleanComponents rooted [] ps
              else cleanComponents rooted [p] ps

    else cleanComponents rooted (p :: acc) ps

/-- Go's `filepath.Clean` on Unix. -/
def goClean (s : String) : String :=
  if s = "" then "."
  else
    let rooted := s.data.head? = some '/'
    let parts := (s.data.splitOn '/').map (fun l => (⟨l⟩ : String))
    let body := String.intercalate "/" (cleanComponents rooted [] parts)
    if rooted then "/" ++ body
    else if body = "" then "." else body

/-- Go's `filepath.Join` on Unix, two-argument form: join the non-empty
elements with a slash and clean the result. -/
def goJoin (a b : String) : String :=
  if a = "" then (if b = "" then "" else goClean b)
  else goClean (a ++ "/" ++ b)

/-- `cleanPath` of `src/unnamed/part_000` lines 132-134
(`FromSlash` is the identity on Unix). -/
def cleanPath (s : String) : String := goClean s

/-- `getTagBuildDir` of `src/unnamed/part_000` lines 197-199: the per-version
build directory, configured root joined with the version's original text. -/
def getTagBuildDir (baseDir version : String) : String := goJoin baseDir version

/-- The directory `realMain` passes to `prepareBuildDirectory`
(`src/unnamed/part_000` line 403): `getTagBuildDir(opts.BuildDir, orig)`,
where `opts.BuildDir` went through `cleanPath` at CLI parsing (line 192). -/
def prepareDirFor (rawBuildDirFlag orig : String) : String :=
  getTagBuildDir (cleanPath rawBuildDirFlag) orig

/-- The `defaultBuildDirectory` constant (`src/unnamed/part_000` line 57). -/
def defaultBuildDirectory : String := "./mimikry"

/-- The directory `realMain` actually passes to `client.Images().Build`
(`src/unnamed/part_000` line 422): `filepath.Join(defaultBuildDirectory,
version.Original())` — the hardcoded default root, not `opts.BuildDir`. -/
def buildDirPassedToBuild (orig : String) : String :=
  goJoin defaultBuildDirectory orig

/-! ### The build engine (`src/pkg/docker/images.go`) -/

/-- The `ErrorLine` struct (`src/pkg/docker/images.go` lines 18-25),
flattened: the `error` field and the nested `errorDetail.message`. -/
structure ErrLine where
  error : String
  detailMessage : String
deriving DecidableEq, Repr

/-- One streamed build-log line as the scanner sees it: `some e` when
`json.Unmarshal` of the line into an `ErrorLine` succeeds with result `e`,
`none` when the line is not such a JSON object. -/
abbrev StreamLine := Option ErrLine

/-- The daemon-side data a single `Build` call observes. -/
structure BuildDaemon where
  /-- `archive.TarWithOptions` succeeded. -/
  tarOK : Bool
  /-- the transport-level `client.ImageBuild` call returned without error. -/
  transportOK : Bool
  /-- the streamed response body, line by line. -/
  lines : List StreamLine
  /-- `client.ImageList` (filtered by the canonical tag) succeeded. -/
  listOK : Bool
  /-- the IDs of the listed images. -/
  imageList : List String
  /-- `client.ImageHistory` succeeded. -/
  historyOK : Bool
  /-- the IDs of the history entries, in order. -/
  history : List String

/-- The error messages collected from the streamed lines
(`src/pkg/docker/images.go` lines 108-121): a line counts if and only if it
unmarshals as an `ErrorLine` whose `Error` field is nonempty; its
`ErrorDetail.Message` is what gets collected. -/
def errLinesOf (ls : List StreamLine) : List String :=
  ls.filterMap fun l =>
    match l with
    | some e => if e.error ≠ "" then some e.detailMessage else none
    | none => none

/-- `strings.TrimPrefix(s, "sha256:")`. -/
def stripSha (s : String) : String :=
  if s.startsWith "sha256:" then s.drop 7 else s

/-- The base-image resolution fold of `getImageIDAndBaseID`
(`src/pkg/docker/images.go` lines 53-61): walk the history, remembering the
last entry whose ID is not the `<missing>` sentinel, trimmed of its
`sha256:` prefix. -/
def baseIDOf (history : List String) : String :=
  history.foldl (fun b h => if h = "<missing>" then b else stripSha h) ""

/-- `getImageIDAndBaseID` (`src/pkg/docker/images.go` lines 27-68): the image
ID is the first listed image matching the canonical tag (error when the list
call fails or returns nothing); the base ID comes from the history walk
(error when the history call fails or no non-`<missing>` entry remains). -/
def getImageIDAndBaseID (d : BuildDaemon) : Except String (String × String) :=
  if !d.listOK then .error "list images"
  else
    match d.imageList with
    | [] => .error "image not found"
    | id0 :: _ =>
      let imageID := stripSha id0
      if !d.historyOK then .error "get image history"
      else
        let baseID := baseIDOf d.history
        if baseID = "" then .error "could not find base image id"
        else .ok (imageID, baseID)

/-- `Build` (`src/pkg/docker/images.go` lines 72-143): fail with no tags;
fail when the build context cannot be packaged; fail when the transport call
fails; stream the body and fail when any structured error line was observed,
even though the transport call succeeded; otherwise resolve the image and
base IDs, failing if that resolution fails. -/
def buildImage (tags : List String) (d : BuildDaemon) : Except String (String × String) :=
  if tags.isEmpty then .error "no tags provided"
  else if !d.tarOK then .error "create build context"
  else if !d.transportOK then .error "build image"
  else if !(errLinesOf d.lines).isEmpty then
    .error ("build image: " ++ String.intercalate "; " (errLinesOf d.lines))
  else getImageIDAndBaseID d

/-! ### The pipeline coordinator (`realMain`, `src/unnamed/part_000` lines 393-471) -/

/-- The outcome of the daemon interactions of one loop iteration, as far as
the coordinator can see them: the build either fails or yields the two IDs,
and the push (when attempted) either succeeds or fails. -/
structure IterIn where
  build : Except String (String × String)
  pushOK : Bool

/-- The run-terminating errors of the pipeline loop. -/
inductive RunErr where
  | buildErr : RunErr
  | emptyID : RunErr
  | pushErr : RunErr
  | removeErr : RunErr
deriving DecidableEq, Repr

/-- The artifact window: `previousImage` and `previousBaseImage`
(`src/unnamed/part_000` lines 393-394), both starting empty. -/
structure Window where
  prevImage : String
  prevBase : String
deriving DecidableEq, Repr

/-- The removal batch collected at the end of an iteration
(`src/unnamed/part_000` lines 450-458): the previous image ID, then the
previous base ID, each only if nonempty. -/
def removalBatch (w : Window) : List String :=
  (if w.prevImage ≠ "" then [w.prevImage] else []) ++
    (if w.prevBase ≠ "" then [w.prevBase] else [])

/-- One iteration of the build loop from the build step on
(`src/unnamed/part_000` lines 421-468): build (fail ⇒ run fails), reject
empty IDs, push unless dry-run (fail ⇒ run fails), then call `Remove` on the
nonempty removal batch (fail ⇒ run fails, window not advanced), and only
then advance the window to the just-built IDs. Returns the advanced window
and the batch passed to `Remove` (`none` when `Remove` was not called). -/
def pipeIter (dryRun : Bool) (removeOK : List String → Bool) (w : Window)
    (inp : IterIn) : Except RunErr (Window × Option (List String)) :=
  match inp.build with
  | .error _ => .error .buildErr
  | .ok (imageID, baseID) =>
    if imageID = "" || baseID = "" then .error .emptyID
    else if !dryRun && !inp.pushOK then .error .pushErr
    else
      let batch := removalBatch w
      if batch.isEmpty then .ok (⟨imageID, baseID⟩, none)
      else if removeOK batch then .ok (⟨imageID, baseID⟩, some batch)
      else .error .removeErr

/-- Run the loop over the per-iteration inputs, accumulating, for every
iteration actually executed, the batch handed to `Remove` (`none` when no
`Remove` call was made). Returns the trace, the final window (where the run
stopped), and the terminal error if any. -/
def runPipeline (dryRun : Bool) (removeOK : List String → Bool) :
    Window → List IterIn → List (Option (List String)) × Window × Option RunErr
  | w, [] => ([], w, none)
  | w, inp :: rest =>
    match pipeIter dryRun removeOK w inp with
    | .error e => ([], w, some e)
    | .ok (w2, batch) =>
      let (trace, wEnd, err) := runPipeline dryRun removeOK w2 rest
      (batch :: trace, wEnd, err)

/-- The tag list for the version at `idx` (`src/unnamed/part_000` lines
413-419): the canonical `TARGETREPO:ORIGINAL` tag, plus `TARGETREPO:latest`
exactly when latest-tagging is on and this is the last index. -/
def imageTagsFor (targetRepo : String) (tagLatest : Bool) (numTags idx : Nat)
    (orig : String) : List String :=
  let imageTag := targetRepo ++ ":" ++ orig
  if tagLatest && decide (idx = numTags - 1)
  then [imageTag, targetRepo ++ ":" ++ "latest"]
  else [imageTag]

/-- `cleanupBuildDirs` (`src/unnamed/part_000` lines 242-253): attempt to
remove every directory; failures are logged and nothing is returned. The
returned list is the log of failed removals — the function has no error
outcome at all. -/
def cleanupBuildDirs (rmFails : String → Bool) (dirs : List String) : List String :=
  dirs.filter rmFails

/-- The observable outcome of a whole run: the value `realMain` returns,
and the cleanup failures that were merely logged by the deferred
`cleanupBuildDirs` call (`src/unnamed/part_000` lines 380-390). Assigning
to `err` inside the deferred closure cannot change the already-determined
unnamed return value, so the logged failures live outside `status`. -/
structure RunOutcome where
  status : Option RunErr
  trace : List (Option (List String))
  finalWindow : Window
  loggedCleanupFailures : List String
deriving Repr

/-- A whole run of the build loop plus its deferred cleanup: the loop result
is computed first, then the deferred `cleanupBuildDirs` only logs; the
build-directory removal oracle `rmFails` can influence nothing but the log. -/
def realMainRun (dryRun : Bool) (removeOK : List String → Bool)
    (rmFails : String → Bool) (pathsToCleanup : List String)
    (inputs : List IterIn) : RunOutcome :=
  let (trace, wEnd, err) := runPipeline dryRun removeOK ⟨"", ""⟩ inputs
  { status := err
    trace := trace
    finalWindow := wEnd
    loggedCleanupFailures := cleanupBuildDirs rmFails pathsToCleanup }

/-! ### The version selector (`realMain`, `src/unnamed/part_000` lines 345-374) -/

/-- The tag filter loop (`src/unnamed/part_000` lines 345-370): trim each
raw tag; skip it when `stdSkipTagFunc` rejects it (only a debug log); skip
it when `semver.NewVersion` fails (only a warning log); skip it when the
constraint check rejects it; otherwise append the parsed version. -/
def filterTags (check : SemVer → Bool) (tags : List String) : List SemVer :=
  tags.foldl
    (fun acc rawTag =>
      let tag := goTrimSpace rawTag
      if stdSkipTagFunc tag then acc
      else
        match semverNewVersion tag with
        | none => acc
        | some version => if !check version then acc else acc ++ [version])
    []

/-- The well-formed versions of a raw tag list: those that survive the trim,
the pattern gate and the parse — with no constraint applied. -/
def wellFormedVersions (tags : List String) : List SemVer :=
  tags.filterMap fun rawTag =>
    let tag := goTrimSpace rawTag
    if patternImageTag tag then semverNewVersion tag else none

/-! ### Go's `sort.Sort`

`src/unnamed/part_000` line 372 sorts with `sort.Sort(semver.Collection(versions))`.
`sort.Sort` is the Go standard library's unstable pattern-defeating
quicksort (`sort/zsortinterface.go`, Go ≥ 1.19, per the module's `go`
directive). It is embedded below verbatim, generically in the element type
and the `Less` function; the data is a total position map (boxed in `Data`
so that every intermediate state is a materialised value) and every
mutation is `data.Swap`. -/

/-- The sorted data: a total position map. -/
structure Data (α : Type) where
  get : Nat → α

variable {α : Type}

/-- `data.Swap(i, j)`. -/
def swapF (i j : Nat) (st : Data α) : Data α :=
  ⟨fun k => if k = i then st.get j else if k = j then st.get i else st.get k⟩

/-- The inner loop of `insertionSort`: starting at position `j`, swap the
element leftwards while it is `Less` than its left neighbour and `j` is
still above the floor. (Also the "shift the smaller one to the left" loop
of `partialInsertionSort`, whose floor is the absolute position `1`.) -/
def insInner (less : α → α → Bool) (floor : Nat) : Nat → Data α → Data α
  | 0, st => st
  | j + 1, st =>
    if floor < j + 1 && less (st.get (j + 1)) (st.get j)
    then insInner less floor j (swapF (j + 1) j st)
    else st

/-- The outer loop of `insertionSort`, `i` running from `a+1` up to `b`.
The first argument is the loop variant `b - i` (with any fuel `≥ b - i` the
base case is unreachable before `i < b` fails, so the fuel is exact). -/
def insOuter (less : α → α → Bool) (a b : Nat) : Nat → Nat → Data α → Data α
  | 0, _, st => st
  | k + 1, i, st =>
    if i < b then insOuter less a b k (i + 1) (insInner less a i st) else st

/-- `insertionSort(data, a, b)`: sort `[a,b)` by insertion. -/
def insertionSortF (less : α → α → Bool) (a b : Nat) (st : Data α) : Data α :=
  insOuter less a b (b - a) (a + 1) st

/-- `siftDown(data, lo, hi, first)`: sift the root of the max-heap over
positions `first+lo .. first+hi-1` (root index `root`, child indices
`2*root+1`, `2*root+2`) down to its place. -/
def siftDownF (less : α → α → Bool) (hi first : Nat) : Nat → Nat → Data α → Data α
  | 0, _, st => st
  | k + 1, root, st =>
    let child := 2 * root + 1
    if child < hi then
      let child2 := if child + 1 < hi && less (st.get (first + child)) (st.get (first + child + 1))
                    then child + 1 else child
      if !less (st.get (first + root)) (st.get (first + child2)) then st
      else siftDownF less hi first k child2 (swapF (first + root) (first + child2) st)
    else st

/-- The heap-construction loop of `heapSort`: `siftDown` for `i` from
`(hi-1)/2` down to `0`. -/
def heapBuild (less : α → α → Bool) (hi first : Nat) : Nat → Data α → Data α
  | 0, st => siftDownF less hi first hi 0 st
  | i + 1, st => heapBuild less hi first i (siftDownF less hi first hi (i + 1) st)

/-- The pop loop of `heapSort`: for `i` from `hi-1` down to `0`, swap the
maximum to position `first+i` and restore the heap on `[0, i)`. -/
def heapPop (less : α → α → Bool) (first : Nat) : Nat → Data α → Data α
  | 0, st => siftDownF less 0 first 0 0 (swapF first first st)
  | i + 1, st =>
    heapPop less first i
      (siftDownF less (i + 1) first (i + 1) 0 (swapF first (first + (i + 1)) st))

/-- `heapSort(data, a, b)`. (`hi = b - a`; in context always `≥ 1`, so the
pop loop running its `i = 0` iteration — a no-op swap and an empty
`siftDown` — is exact.) -/
def heapSortF (less : α → α → Bool) (a b : Nat) (st : Data α) : Data α :=
  let first := a
  let hi := b - a
  let st1 := heapBuild less hi first ((hi - 1) / 2) st
  heapPop less first (hi - 1) st1

/-- The scan loop of `partialInsertionSort`: advance `i` while the pair
`(i-1, i)` is in order. Returns the final `i`. -/
def pisScan (less : α → α → Bool) (b : Nat) (st : Data α) : Nat → Nat → Nat
  | 0, i => i
  | k + 1, i =>
    if i < b then
      if !less (st.get i) (st.get (i - 1)) then pisScan less b st k (i + 1) else i
    else i

/-- The "shift the greater one to the right" loop of
`partialInsertionSort`: bubble position `j` rightwards while out of order,
up to `b`. -/
def shiftRight (less : α → α → Bool) (b : Nat) : Nat → Nat → Data α → Data α
  | 0, _, st => st
  | k + 1, j, st =>
    if j < b then
      if less (st.get j) (st.get (j - 1))
      then shiftRight less b k (j + 1) (swapF j (j - 1) st)
      else st
    else st

/-- The body of `partialInsertionSort(data, a, b)`: at most `maxSteps = 5`
adjacent out-of-order pairs are repaired; on short ranges
(`b - a < shortestShifting = 50`) no shifting is done at all. Returns the
data and whether the range was (made) fully sorted. -/
def pisGo (less : α → α → Bool) (a b : Nat) : Nat → Nat → Data α → Data α × Bool
  | 0, _, st => (st, false)
  | steps + 1, i, st =>
    let i1 := pisScan less b st (b - i) i
    if i1 = b then (st, true)
    else if b - a < 50 then (st, false)
    else
      let st1 := swapF i1 (i1 - 1) st
      let st2 := if i1 - a ≥ 2 then insInner less 0 (i1 - 1) st1 else st1
      let st3 := if b - i1 ≥ 2 then shiftRight less b (b - (i1 + 1)) (i1 + 1) st2 else st2
      pisGo less a b steps i1 st3

/-- `partialInsertionSort(data, a, b)`. -/
def partInsertionSort (less : α → α → Bool) (a b : Nat) (st : Data α) :
    Data α × Bool :=
  pisGo less a b 5 (a + 1) st

/-- One step of the `xorshift` generator used by `breakPatterns`
(64-bit: `r ^= r<<13; r ^= r>>7; r ^= r<<17`). -/
def xorshiftNext (r : Nat) : Nat :=
  let r1 := (r ^^^ (r <<< 13)) % 2 ^ 64
  let r2 := r1 ^^^ (r1 >>> 7)
  (r2 ^^^ (r2 <<< 17)) % 2 ^ 64

/-- `breakPatterns(data, a, b)`: on ranges of length ≥ 8, swap three
positions around the middle with pseudo-random ones (`xorshift` seeded with
the length, masked by `nextPowerOfTwo(length) - 1`). -/
def breakPatternsF (a b : Nat) (st : Data α) : Data α :=
  let length := b - a
  if length ≥ 8 then
    let modulus := 2 ^ Nat.size length
    let idx := a + length / 4 * 2 - 1
    let pick := fun (r : Nat) =>
      let other := r &&& (modulus - 1)
      if other ≥ length then other - length else other
    let r1 := xorshiftNext length
    let st1 := swapF (idx - 1) (a + pick r1) st
    let r2 := xorshiftNext r1
    let st2 := swapF idx (a + pick r2) st1
    let r3 := xorshiftNext r2
    swapF (idx + 1) (a + pick r3) st2
  else st

/-- The `sortedHint` returned by `choosePivot`. -/
inductive SortHint where
  | increasing : SortHint
  | decreasing : SortHint
  | unknown : SortHint
deriving DecidableEq, Repr

/-- `order2`: order two positions by their elements, counting a swap. -/
def order2 (less : α → α → Bool) (st : Data α) (a b swaps : Nat) :
    Nat × Nat × Nat :=
  if less (st.get b) (st.get a) then (b, a, swaps + 1) else (a, b, swaps)

/-- `median`: the position of the median of three, threading the swap count. -/
def median3 (less : α → α → Bool) (st : Data α) (a b c swaps : Nat) : Nat × Nat :=
  let (a1, b1, s1) := order2 less st a b swaps
  let (b2, _c2, s2) := order2 less st b1 c s1
  let (_a3, b3, s3) := order2 less st a1 b2 s2
  (b3, s3)

/-- `medianAdjacent`: median of `x-1, x, x+1`. -/
def medianAdjacent (less : α → α → Bool) (st : Data α) (x swaps : Nat) : Nat × Nat :=
  median3 less st (x - 1) x (x + 1) swaps

/-- `choosePivot(data, a, b)`: median (of medians for length ≥ 50; plain
median of the three quartile positions for length ≥ 8) with a sortedness
hint derived from the swap count (`0` → increasing, `12` → decreasing). -/
def choosePivotF (less : α → α → Bool) (st : Data α) (a b : Nat) : Nat × SortHint :=
  let l := b - a
  let i0 := a + l / 4 * 1
  let j0 := a + l / 4 * 2
  let k0 := a + l / 4 * 3
  if l ≥ 8 then
    let (i1, j1, k1, s1) :=
      if l ≥ 50 then
        let (i1, si) := medianAdjacent less st i0 0
        let (j1, sj) := medianAdjacent less st j0 si
        let (k1, sk) := medianAdjacent less st k0 sj
        (i1, j1, k1, sk)
      else (i0, j0, k0, 0)
    let (j2, s2) := median3 less st i1 j1 k1 s1
    (j2, if s2 = 0 then .increasing else if s2 = 12 then .decreasing else .unknown)
  else (j0, .increasing)

/-- `reverseRange(data, a, b)`. -/
def reverseRangeF : Nat → Nat → Nat → Data α → Data α
  | 0, _, _, st => st
  | k + 1, i, j, st =>
    if i < j then reverseRangeF k (i + 1) (j - 1) (swapF i j st) else st

/-- The upward scan of `partition`: advance `i` while `i ≤ j` and the
element is `Less` than the pivot (at position `p`). The bound certifies the
scan only moved forward. -/
def scanUp (less : α → α → Bool) (st : Data α) (p j : Nat) : Nat → Nat → Nat
  | 0, i => i
  | k + 1, i =>
    if i ≤ j ∧ less (st.get i) (st.get p) then scanUp less st p j k (i + 1) else i

/-- The downward scan of `partition`: retreat `j` while `i ≤ j` and the
element is not `Less` than the pivot. (Callers always have `i ≥ 1`, so the
`j = 0` guard is never taken with the loop condition true.) -/
def scanDown (less : α → α → Bool) (st : Data α) (p i : Nat) : Nat → Nat
  | 0 => 0
  | j + 1 =>
    if i ≤ j + 1 ∧ !less (st.get (j + 1)) (st.get p)
    then scanDown less st p i j
    else j + 1

/-- The swap loop of `partition` (pivot at position `p`): scan, swap the
out-of-place pair, repeat; returns the data and the final `j`. -/
def partLoop (less : α → α → Bool) (p : Nat) : Nat → Data α → Nat → Nat →
    Data α × Nat
  | 0, st, _, j => (st, j)
  | k + 1, st, i, j =>
    let i1 := scanUp less st p j (j + 1 - i) i
    let j1 := scanDown less st p i1 j
    if i1 > j1 then (st, j1)
    else partLoop less p k (swapF i1 j1 st) (i1 + 1) (j1 - 1)

/-- `partition(data, a, b, pivot)`: move the pivot to `a`, Hoare-partition
`[a+1, b)` against it, place the pivot at the returned position; the flag
reports that no swap loop iteration was needed ("already partitioned"). -/
def partitionF (less : α → α → Bool) (a b pivot : Nat) (st : Data α) :
    Data α × Nat × Bool :=
  let st0 := swapF a pivot st
  let i1 := scanUp less st0 a (b - 1) (b - 1 + 1 - (a + 1)) (a + 1)
  let j1 := scanDown less st0 a i1 (b - 1)
  if i1 > j1 then (swapF j1 a st0, j1, true)
  else
    let st1 := swapF i1 j1 st0
    let (st2, j2) := partLoop less a b st1 (i1 + 1) (j1 - 1)
    (swapF j2 a st2, j2, false)

/-- The upward scan of `partitionEqual`: advance `i` while the pivot is not
`Less` than the element. -/
def scanUpEq (less : α → α → Bool) (st : Data α) (p j : Nat) : Nat → Nat → Nat
  | 0, i => i
  | k + 1, i =>
    if i ≤ j ∧ !less (st.get p) (st.get i) then scanUpEq less st p j k (i + 1) else i

/-- The downward scan of `partitionEqual`: retreat `j` while the pivot is
`Less` than the element. -/
def scanDownEq (less : α → α → Bool) (st : Data α) (p i : Nat) : Nat → Nat
  | 0 => 0
  | j + 1 =>
    if i ≤ j + 1 ∧ less (st.get p) (st.get (j + 1))
    then scanDownEq less st p i j
    else j + 1

/-- The swap loop of `partitionEqual`; returns the data and the final `i`. -/
def partEqLoop (less : α → α → Bool) (p : Nat) : Nat → Data α → Nat → Nat →
    Data α × Nat
  | 0, st, i, _ => (st, i)
  | k + 1, st, i, j =>
    let i1 := scanUpEq less st p j (j + 1 - i) i
    let j1 := scanDownEq less st p i1 j
    if i1 > j1 then (st, i1)
    else partEqLoop less p k (swapF i1 j1 st) (i1 + 1) (j1 - 1)

/-- `partitionEqual(data, a, b, pivot)`: move the pivot to `a`, partition
`[a+1, b)` into elements equal to it followed by elements greater; returns
the first index of the greater part. -/
def partitionEqualF (less : α → α → Bool) (a b pivot : Nat) (st : Data α) :
    Data α × Nat :=
  let st0 := swapF a pivot st
  partEqLoop less a b st0 (a + 1) (b - 1)

/-- `pdqsort(data, a, b, limit)` (`sort/zsortinterface.go`, Go 1.19+), with
the outer `for` loop and the recursive call both written as fuelled
recursion; every call (loop re-entry included) strictly shrinks `b - a`, so
any fuel `≥ b - a` computes the real thing. -/
def pdqRec (less : α → α → Bool) :
    Nat → Data α → Nat → Nat → Nat → Bool → Bool → Data α
  | 0, st, _, _, _, _, _ => st
  | fuel + 1, st, a, b, limit, wasBalanced, wasPartitioned =>
    let length := b - a
    if length ≤ 12 then insertionSortF less a b st
    else if limit = 0 then heapSortF less a b st
    else
      let stL := if !wasBalanced then breakPatternsF a b st else st
      let limit1 := if !wasBalanced then limit - 1 else limit
      let (pivot0, hint0) := choosePivotF less stL a b
      let st1 := if hint0 = .decreasing then reverseRangeF (b - 1 - a) a (b - 1) stL else stL
      let pivot := if hint0 = .decreasing then (b - 1) - (pivot0 - a) else pivot0
      let hint := if hint0 = .decreasing then SortHint.increasing else hint0
      let (st2, sortedDone) :=
        if wasBalanced && wasPartitioned && decide (hint = .increasing)
        then partInsertionSort less a b st1
        else (st1, false)
      if sortedDone then st2
      else if a > 0 && !less (st2.get (a - 1)) (st2.get pivot) then
        let (st3, mid) := partitionEqualF less a b pivot st2
        pdqRec less fuel st3 mid b limit1 wasBalanced wasPartitioned
      else
        let (st3, mid, alreadyPartitioned) := partitionF less a b pivot st2
        let leftLen := mid - a
        let rightLen := b - mid
        let wasBalanced2 := decide (min leftLen rightLen ≥ length / 8)
        if leftLen < rightLen then
          let st4 := pdqRec less fuel st3 a mid limit1 true true
          pdqRec less fuel st4 (mid + 1) b limit1 wasBalanced2 alreadyPartitioned
        else
          let st4 := pdqRec less fuel st3 (mid + 1) b limit1 true true
          pdqRec less fuel st4 a mid limit1 wasBalanced2 alreadyPartitioned

/-- `bits.Len` (the number of bits of `n`), with the argument doubling as
fuel: `bitsLenAux f n = Nat.size n` whenever `n ≤ f`. -/
def bitsLenAux : Nat → Nat → Nat
  | 0, _ => 0
  | f + 1, n => if n = 0 then 0 else bitsLenAux f (n / 2) + 1

/-- `bits.Len(n)`. -/
def bitsLen (n : Nat) : Nat := bitsLenAux n n

/-- Go's `sort.Sort` on a list: identity for length ≤ 1; otherwise run
`pdqsort` over positions `[0, n)` with `limit = bits.Len(n)` and read the
positions back. -/
def sortGo [Inhabited α] (less : α → α → Bool) (l : List α) : List α :=
  let n := l.length
  if n ≤ 1 then l
  else
    let st : Data α := ⟨fun k => l.getD k default⟩
    let st2 := pdqRec less (n + 1) st 0 n (bitsLen n) true true
    (List.range n).map st2.get

/-- The version-selection stage of `realMain` (`src/unnamed/part_000` lines
288-293 and 345-374): parse the constraint (failure aborts the run), filter
the raw tags, sort with `sort.Sort(semver.Collection(...))`. The outer
`Option` is the modelling boundary of the third-party constraint parser
(cf. `semverNewConstraint`). -/
def selectStage (constraintExpr : String) (tags : List String) :
    Option (Except Unit (List SemVer)) :=
  (semverNewConstraint constraintExpr).map fun r =>
    match r with
    | .error e => .error e
    | .ok check => .ok (sortGo semverLess (filterTags check tags))

/-- A raw tag that survives the selector's gates: it matches the pattern
after trimming and parses as a version. -/
def wellFormedTag (t : String) : Bool :=
  patternImageTag (goTrimSpace t) && (semverNewVersion (goTrimSpace t)).isSome

/-- The per-iteration `Remove` batches of a fully successful run, starting
from window `w`: iteration 1 calls nothing when `w` is empty, and every
iteration passes the window collected from the previous build before
advancing it. -/
def expectedTrace (w : Window) : List (String × String) → List (Option (List String))
  | [] => []
  | r :: rest =>
    (if (removalBatch w).isEmpty then none else some (removalBatch w)) ::
      expectedTrace ⟨r.1, r.2⟩ rest

/-- The window a fully successful run ends in: the IDs of the last build
(or the starting window when there was nothing to build). -/
def lastWindowFrom (w : Window) (results : List (String × String)) : Window :=
  results.foldl (fun _ r => ⟨r.1, r.2⟩) w

/-- The window at entry of iteration `k` (0-based) of a run that started
with window `w`: `w` itself for the first iteration, afterwards the IDs of
the previous iteration's build. -/
def entryWindow (w : Window) (results : List (String × String)) : Nat → Window
  | 0 => w
  | n + 1 => ⟨(results.getD n ("", "")).1, (results.getD n ("", "")).2⟩

/-- The per-tag outcome of one iteration of the filter loop: the version
the iteration appends, if any. -/
def selectOne (check : SemVer → Bool) (rawTag : String) : Option SemVer :=
  let tag := goTrimSpace rawTag
  if stdSkipTagFunc tag then none
  else
    match semverNewVersion tag with
    | none => none
    | some v => if !check v then none else some v

/-- The index transposition underlying `data.Swap(i, j)`. -/
def swapIdx (i j k : Nat) : Nat :=
  if k = i then j else if k = j then i else k

/-- `st2` is `st` with the positions of `[a, b)` permuted: its reads factor
through a bijection of positions that fixes everything outside `[a, b)`.
Every state the sort routines produce is related to their input this way. -/
def PermWithin (a b : Nat) (st st2 : Data α) : Prop :=
  ∃ σ : Nat → Nat, Function.Bijective σ ∧ (∀ k, k < a ∨ b ≤ k → σ k = k) ∧
    ∀ k, st2.get k = st.get (σ k)

/-- The elements of positions `[a, b)`, in position order. -/
def rangeList (st : Data α) (a b : Nat) : List α :=
  (List.range' a (b - a)).map st.get

/-- Positions `[a, b)` are in ascending order: no later element is `Less`
than an earlier one. -/
def sortedRange (less : α → α → Bool) (st : Data α) (a b : Nat) : Prop :=
  ∀ i j, a ≤ i → i < j → j < b → less (st.get j) (st.get i) = false

/-- `less` is a strict weak order (as a comparator on `Bool`): `less` is
transitive, its negation is transitive, and it is asymmetric. The semver
comparator is one. -/
def IsSWO (less : α → α → Bool) : Prop :=
  (∀ x y z, less x y = true → less y z = true → less x z = true) ∧
  (∀ x y z, less x y = false → less y z = false → less x z = false) ∧
  (∀ x y, less x y = true → less y x = false)

/-! ## Theorems -/

/-! ### Tag cache round trip (C6) and cache-miss degradation (C9) -/

theorem decodeStrList_map (ts : List String) :
    decodeStrList (ts.map .jstr) = some ts := by
  induction ts with
  | nil => rfl
  | cons t ts ih => simp [decodeStrList, ih]

theorem decode_encode (c : ImageTags) :
    decodeImageTags (encodeImageTags c) = some c := by
  simp [encodeImageTags, decodeImageTags, jsonField, decodeStrList_map]

theorem jsonSize_encode_pos (c : ImageTags) : 0 < jsonSize (encodeImageTags c) := by
  simp [encodeImageTags, jsonSize]

/-- C6 (amended): for every `TagCache` value satisfying the data model's
validity invariant (nonempty image name, nonempty tag sequence), saving and
re-loading yields a cache with identical image name and tag sequence and a
timestamp normalized upward to the file modification time, never backward. -/
theorem claim_C6_amended (c : ImageTags) (wt : Nat)
    (himg : c.image ≠ "") (htags : c.tags ≠ []) :
    loadTagCache (some (saveTagCache c wt)) =
      .ok ⟨c.image, if wt ≠ 0 ∧ c.modified < wt then wt else c.modified, c.tags⟩ ∧
    ∀ c2, loadTagCache (some (saveTagCache c wt)) = .ok c2 →
      c2.image = c.image ∧ c2.tags = c.tags ∧ c.modified ≤ c2.modified := by
  obtain ⟨ci, cm, ct⟩ := c
  simp only [ImageTags.mk.injEq] at himg htags ⊢
  have hok : loadTagCache (some (saveTagCache ⟨ci, cm, ct⟩ wt)) =
      .ok ⟨ci, if wt ≠ 0 ∧ cm < wt then wt else cm, ct⟩ := by
    simp only [loadTagCache, saveTagCache]
    rw [if_neg (jsonSize_encode_pos ⟨ci, cm, ct⟩).ne']
    simp only [decode_encode]
    rw [if_neg (by simp [himg, List.isEmpty_iff, htags])]
  refine ⟨hok, fun c2 h2 => ?_⟩
  rw [hok] at h2
  cases h2
  refine ⟨rfl, rfl, ?_⟩
  show cm ≤ if wt ≠ 0 ∧ cm < wt then wt else cm
  split <;> omega

/-- C6 witness: a concrete valid cache round-trips, the timestamp moving
up to the file modification time. -/
theorem claim_C6_amended_witness :
    loadTagCache (some (saveTagCache ⟨"postgres", 3, ["12", "12.3"]⟩ 5)) =
      .ok ⟨"postgres", 5, ["12", "12.3"]⟩ := by
  have h := (claim_C6_amended ⟨"postgres", 3, ["12", "12.3"]⟩ 5
    (by decide) (by decide)).1
  rw [h]
  norm_num

/-- C6 counterexample: for a `TagCache` value with an empty tag sequence —
which the claim's "every TagCache value" includes — saving then loading
does not yield a cache at all: the load reports `ErrInvalidTagCache`, so
the loaded image name and tag sequence do not exist. -/
theorem claim_C6_counterexample :
    loadTagCache (some (saveTagCache ⟨"postgres", 3, []⟩ 5)) =
      .error .invalidTagCache := by
  simp only [loadTagCache, saveTagCache]
  rw [if_neg (jsonSize_encode_pos ⟨"postgres", 3, []⟩).ne', decode_encode]
  simp

/-- C9: a cache file that is zero-length, or whose JSON decodes to an empty
image name or an empty tag list, makes the run behave exactly as if the
file were missing — the stage falls back to the network fetch — and the
stage can only fail with a network error, never a cache error. -/
theorem claim_C9 (file : CacheFile) (now : Nat) (repo : String)
    (net : Except String (List String))
    (h : file.size = 0 ∨
      ∃ j c, file.content = some j ∧ decodeImageTags j = some c ∧
        (c.image = "" ∨ c.tags = [])) :
    loadTagsStage (some file) now repo net = loadTagsStage none now repo net ∧
    ∀ e, loadTagsStage (some file) now repo net = .error e →
      ∃ ne, net = .error ne ∧ e = "load remote tags: " ++ ne := by
  have herr : ∃ le, loadTagCache (some file) = .error le := by
    by_cases hsz : file.size = 0
    · exact ⟨.noTagCache, by simp [loadTagCache, hsz]⟩
    · rcases h with hz | ⟨j, c, hc, hd, hbad⟩
      · exact absurd hz hsz
      · refine ⟨.invalidTagCache, ?_⟩
        simp only [loadTagCache]
        rw [if_neg hsz, hc]
        simp only [hd]
        rw [if_pos]
        rcases hbad with hb | hb <;> simp [hb, List.isEmpty_iff]
  obtain ⟨le, hle⟩ := herr
  have h0 : loadTagCache (none : Option CacheFile) = .error .noTagCache := rfl
  constructor
  · cases net <;> simp [loadTagsStage, hle, h0]
  · intro e he
    cases net with
    | error ne =>
      simp only [loadTagsStage, hle, Except.error.injEq] at he
      exact ⟨ne, rfl, he.symm⟩
    | ok t => simp [loadTagsStage, hle] at he

/-- C9 witness: a zero-length cache file behaves like a missing one against
a successful network fetch. -/
theorem claim_C9_witness :
    loadTagsStage (some ⟨0, none, 0⟩) 9 "postgres" (.ok ["12", "13"]) =
      loadTagsStage none 9 "postgres" (.ok ["12", "13"]) :=
  (claim_C9 ⟨0, none, 0⟩ 9 "postgres" (.ok ["12", "13"]) (Or.inl rfl)).1

/-! ### The build engine (C2) -/

theorem baseIDOf_eq (l : List String) : ∀ acc : String,
    l.foldl (fun b h => if h = "<missing>" then b else stripSha h) acc =
      match (l.filter (fun h => h ≠ "<missing>")).getLast? with
      | some y => stripSha y
      | none => acc := by
  induction l with
  | nil => intro acc; rfl
  | cons x t ih =>
    intro acc
    simp only [List.foldl_cons, List.filter_cons]
    by_cases hx : x = "<missing>"
    · rw [if_pos hx, ih acc]
      simp [hx]
    · rw [if_neg hx, ih (stripSha x)]
      have hcons : (decide ¬x = "<missing>") = true := by simp [hx]
      rw [hcons, if_pos rfl]
      cases hl : t.filter (fun h => decide ¬h = "<missing>") with
      | nil => simp
      | cons z zs =>
        have hz : (z :: zs).getLast? = some ((z :: zs).getLast (by simp)) :=
          List.getLast?_eq_getLast_of_ne_nil (by simp)
        rw [List.getLast?_cons_cons, hz]

/-- C2: the Build Engine's `build` fails whenever any streamed line decodes
as a structured error object (nonempty `error` field), regardless of the
transport outcome; with no such lines it still fails whenever the image or
base identifier cannot be resolved; and the base identifier is exactly the
last history entry that is not the `<missing>` sentinel, trimmed. -/
theorem claim_C2 (tags : List String) (d : BuildDaemon) :
    ((∃ l ∈ d.lines, ∃ e, l = some e ∧ e.error ≠ "") →
      ∃ msg, buildImage tags d = .error msg) ∧
    (errLinesOf d.lines = [] →
      (∀ r, getImageIDAndBaseID d ≠ .ok r) →
      ∃ msg, buildImage tags d = .error msg) ∧
    baseIDOf d.history =
      (match (d.history.filter (fun h => h ≠ "<missing>")).getLast? with
       | some y => stripSha y
       | none => "") := by
  refine ⟨?_, ?_, ?_⟩
  · rintro ⟨l, hl, e, rfl, he⟩
    have hmem : e.detailMessage ∈ errLinesOf d.lines := by
      simp only [errLinesOf, List.mem_filterMap]
      exact ⟨some e, hl, by simp [he]⟩
    have hne : errLinesOf d.lines ≠ [] := by
      intro hh
      rw [hh] at hmem
      exact absurd hmem (List.not_mem_nil _)
    simp only [buildImage]
    split
    · exact ⟨_, rfl⟩
    split
    · exact ⟨_, rfl⟩
    split
    · exact ⟨_, rfl⟩
    split
    · exact ⟨_, rfl⟩
    · rename_i hcond
      have h2 : errLinesOf d.lines = [] := by
        cases hB : (errLinesOf d.lines).isEmpty with
        | false => rw [hB] at hcond; simp at hcond
        | true => exact List.isEmpty_iff.mp hB
      exact absurd h2 hne
  · intro _hnone hfail
    simp only [buildImage]
    split
    · exact ⟨_, rfl⟩
    split
    · exact ⟨_, rfl⟩
    split
    · exact ⟨_, rfl⟩
    split
    · exact ⟨_, rfl⟩
    · cases hg : getImageIDAndBaseID d with
      | error msg => exact ⟨msg, rfl⟩
      | ok r => exact (hfail r hg).elim
  · exact baseIDOf_eq d.history ""

/-- C2 witness: a build whose stream contains a structured error line fails
even though the transport call succeeded. -/
theorem claim_C2_witness :
    ∃ msg, buildImage ["r:12"]
      ⟨true, true, [none, some ⟨"boom", "it broke"⟩], true, ["sha256:abc"], true,
        ["<missing>", "sha256:base"]⟩ = .error msg :=
  (claim_C2 ["r:12"]
      ⟨true, true, [none, some ⟨"boom", "it broke"⟩], true, ["sha256:abc"], true,
        ["<missing>", "sha256:base"]⟩).1
    ⟨some ⟨"boom", "it broke"⟩, by simp, ⟨"boom", "it broke"⟩, rfl, by decide⟩

/-! ### Latest tagging (C10) -/

theorem string_append_cancel_left {a b c : String} (h : a ++ b = a ++ c) : b = c := by
  apply String.ext
  have hd := congrArg String.data h
  rw [String.data_append, String.data_append] at hd
  exact List.append_cancel_left hd

theorem canonical_ne_latest (repo orig : String) (h : patternImageTag orig = true) :
    repo ++ ":" ++ orig ≠ repo ++ ":" ++ "latest" := by
  intro he
  have : orig = "latest" := string_append_cancel_left he
  rw [this] at h
  exact absurd h (by decide)

/-- C10: in a nonempty version sequence (whose originals all match the tag
pattern, as the selector guarantees), with latest-tagging enabled only the
final version's build is given the additional `repo:latest` tag; every
earlier version is built with exactly its canonical tag and never the
latest tag; with latest-tagging disabled no version receives it. -/
theorem claim_C10 (repo : String) (tagLatest : Bool) (versions : List SemVer)
    (hne : versions ≠ [])
    (hwf : ∀ v ∈ versions, patternImageTag v.original = true) :
    (∀ i (hi : i < versions.length), i ≠ versions.length - 1 →
      imageTagsFor repo tagLatest versions.length i (versions.get ⟨i, hi⟩).original =
        [repo ++ ":" ++ (versions.get ⟨i, hi⟩).original] ∧
      (repo ++ ":" ++ "latest") ∉
        imageTagsFor repo tagLatest versions.length i (versions.get ⟨i, hi⟩).original) ∧
    (tagLatest = true →
      imageTagsFor repo tagLatest versions.length (versions.length - 1)
          (versions.getLast hne).original =
        [repo ++ ":" ++ (versions.getLast hne).original, repo ++ ":" ++ "latest"]) ∧
    (tagLatest = false → ∀ i (hi : i < versions.length),
      (repo ++ ":" ++ "latest") ∉
        imageTagsFor repo tagLatest versions.length i (versions.get ⟨i, hi⟩).original) := by
  refine ⟨?_, ?_, ?_⟩
  · intro i hi hlast
    have heq : imageTagsFor repo tagLatest versions.length i
        (versions.get ⟨i, hi⟩).original =
        [repo ++ ":" ++ (versions.get ⟨i, hi⟩).original] := by
      simp [imageTagsFor, hlast]
    refine ⟨heq, ?_⟩
    rw [heq]
    intro hmem
    have h1 := List.mem_singleton.mp hmem
    exact canonical_ne_latest repo _ (hwf _ (versions.get_mem _ _)) h1.symm
  · intro hl
    subst hl
    simp [imageTagsFor]
  · intro hf i hi
    subst hf
    simp only [imageTagsFor, Bool.false_and, Bool.false_eq_true, if_neg, not_false_iff]
    intro hmem
    have h1 := List.mem_singleton.mp hmem
    exact canonical_ne_latest repo _ (hwf _ (versions.get_mem _ _)) h1.symm

/-- C10 witness: three pattern-shaped versions, latest-tagging on — only the
last gets the extra tag. -/
theorem claim_C10_witness :
    imageTagsFor "r" true 3 0 "10.1" = ["r" ++ ":" ++ "10.1"] ∧
    imageTagsFor "r" true 3 2 "12.3" = ["r" ++ ":" ++ "12.3", "r" ++ ":" ++ "latest"] := by
  have h := claim_C10 "r" true
    [⟨10, 1, 0, "10.1"⟩, ⟨11, 0, 0, "11.0"⟩, ⟨12, 3, 0, "12.3"⟩]
    (by decide) (by decide)
  refine ⟨?_, ?_⟩
  · exact (h.1 0 (by decide) (by decide)).1
  · exact h.2.1 rfl

/-! ### Build directory mismatch (C5) -/

/-- C5: the directory populated by the Template Renderer during Prepare is
`opts.BuildDir` joined with the version (here `-b custom`, version `12.3`
gives `custom/12.3`), but the directory handed to the Build Engine is the
hardcoded default root joined with the version (`mimikry/12.3`) — they
differ whenever the configured root is not the default, and coincide when
it is. -/
theorem claim_C5_divergence :
    (prepareDirFor "custom" "12.3" = "custom/12.3" ∧
     buildDirPassedToBuild "12.3" = "mimikry/12.3" ∧
     prepareDirFor "custom" "12.3" ≠ buildDirPassedToBuild "12.3") ∧
    prepareDirFor "./mimikry" "12.3" = buildDirPassedToBuild "12.3" := by
  refine ⟨⟨?_, ?_, ?_⟩, ?_⟩ <;> decide

/-! ### The version selector (C3, C8) -/

theorem filterTags_eq_filterMap (check : SemVer → Bool) (tags : List String) :
    filterTags check tags = tags.filterMap (selectOne check) := by
  suffices h : ∀ (ts : List String) (acc : List SemVer),
      ts.foldl
        (fun acc rawTag =>
          let tag := goTrimSpace rawTag
          if stdSkipTagFunc tag then acc
          else
            match semverNewVersion tag with
            | none => acc
            | some version => if !check version then acc else acc ++ [version])
        acc = acc ++ ts.filterMap (selectOne check) by
    simpa [filterTags] using h tags []
  intro ts
  induction ts with
  | nil => intro acc; simp
  | cons t ts ih =>
    intro acc
    rw [List.foldl_cons, List.filterMap_cons]
    by_cases hskip : stdSkipTagFunc (goTrimSpace t)
    · rw [if_pos hskip, ih acc]
      simp [selectOne, hskip]
    · rw [if_neg hskip]
      cases hp : semverNewVersion (goTrimSpace t) with
      | none =>
        rw [ih]
        simp [selectOne, hskip, hp]
      | some v =>
        rw [ih]
        by_cases hchk : check v <;> simp [selectOne, hskip, hp, hchk]

theorem selectOne_true (t : String) :
    selectOne (fun _ => true) t =
      (if patternImageTag (goTrimSpace t) then semverNewVersion (goTrimSpace t)
       else none) := by
  simp only [selectOne, stdSkipTagFunc]
  by_cases hp : patternImageTag (goTrimSpace t)
  · rw [if_neg (by simp [hp]), if_pos hp]
    cases semverNewVersion (goTrimSpace t) <;> simp
  · rw [if_pos (by simp [hp]), if_neg hp]

/-- C3: with the empty constraint expression (the `-v` default) the
constraint parses, matches every version, and the selection stage succeeds
with exactly the well-formed versions (sorted), for every raw tag list —
the run cannot fail with a constraint-parse error. -/
theorem claim_C3 (tags : List String) :
    selectStage "" tags = some (.ok (sortGo semverLess (wellFormedVersions tags))) := by
  have h1 : filterTags (fun _ => true) tags = wellFormedVersions tags := by
    rw [filterTags_eq_filterMap, wellFormedVersions]
    exact List.filterMap_congr (fun t _ => selectOne_true t)
  simp [selectStage, semverNewConstraint, h1]

/-- C8: the filter loop is insensitive to ill-formed raw tags — dropping
every tag that fails the trim-pattern-parse gates leaves the selector
output unchanged (they are excluded, not errors) — and every selected
version arises from a surviving raw tag that matched the pattern after
trimming, parsed, and passed the constraint. -/
theorem claim_C8 (check : SemVer → Bool) (tags : List String) :
    filterTags check tags = filterTags check (tags.filter wellFormedTag) ∧
    ∀ v ∈ filterTags check tags, ∃ t ∈ tags,
      patternImageTag (goTrimSpace t) = true ∧
      semverNewVersion (goTrimSpace t) = some v ∧ check v = true := by
  constructor
  · rw [filterTags_eq_filterMap, filterTags_eq_filterMap]
    induction tags with
    | nil => rfl
    | cons t ts ih =>
      rw [List.filter_cons]
      by_cases hwft : wellFormedTag t
      · rw [if_pos (by simpa using hwft), List.filterMap_cons, List.filterMap_cons, ih]
      · rw [if_neg (by simpa using hwft), List.filterMap_cons]
        have hnone : selectOne check t = none := by
          simp only [selectOne, stdSkipTagFunc]
          by_cases hp : patternImageTag (goTrimSpace t)
          · rw [if_neg (by simp [hp])]
            cases hparse : semverNewVersion (goTrimSpace t) with
            | none => rfl
            | some v => exact absurd (by simp [wellFormedTag, hp, hparse]) hwft
          · rw [if_pos (by simp [hp])]
        rw [hnone, ih]
  · intro v hv
    rw [filterTags_eq_filterMap] at hv
    obtain ⟨t, ht, hsel⟩ := List.mem_filterMap.mp hv
    simp only [selectOne, stdSkipTagFunc] at hsel
    by_cases hp : patternImageTag (goTrimSpace t)
    · rw [if_neg (by simp [hp])] at hsel
      cases hparse : semverNewVersion (goTrimSpace t) with
      | none => rw [hparse] at hsel; exact absurd hsel (by simp)
      | some w =>
        rw [hparse] at hsel
        by_cases hchk : check w
        · simp only [hchk] at hsel
          simp only [Bool.not_true, Bool.false_eq_true, if_false, Option.some.injEq] at hsel
          subst hsel
          exact ⟨t, ht, hp, hparse, hchk⟩
        · simp [hchk] at hsel
    · rw [if_pos (by simp [hp])] at hsel
      exact absurd hsel (by simp)

/-! ### The pipeline coordinator: trailing-window cleanup (C1) and
cleanup-failure semantics (C4) -/

/-- A fully successful run computes exactly the expected `Remove` trace and
ends with the window at the last build's IDs. -/
theorem runPipeline_ok (dryRun : Bool) (results : List (String × String)) :
    ∀ w : Window,
    (∀ r ∈ results, r.1 ≠ "" ∧ r.2 ≠ "") →
    runPipeline dryRun (fun _ => true) w (results.map (fun r => ⟨.ok r, true⟩)) =
      (expectedTrace w results, lastWindowFrom w results, none) := by
  induction results with
  | nil => intro w _; rfl
  | cons r rs ih =>
    intro w h
    obtain ⟨ri, rb⟩ := r
    obtain ⟨h1, h2⟩ := h (ri, rb) (by simp)
    simp only at h1 h2
    have hiter : pipeIter dryRun (fun _ => true) w ⟨.ok (ri, rb), true⟩ =
        .ok (⟨ri, rb⟩,
          if (removalBatch w).isEmpty then none else some (removalBatch w)) := by
      simp only [pipeIter]
      rw [if_neg (by simp [h1, h2])]
      rw [if_neg (by cases dryRun <;> simp)]
      by_cases hb : (removalBatch w).isEmpty
      · rw [if_pos hb]
        simp [hb]
      · rw [if_neg hb]
        simp [hb]
    simp only [List.map_cons, runPipeline, hiter]
    rw [ih ⟨ri, rb⟩ (fun x hx => h x (by simp [hx]))]
    simp [expectedTrace, lastWindowFrom]

/-- The first iteration of a run that starts with an empty window calls no
`Remove`. -/
theorem expectedTrace_head (r : String × String) (rs : List (String × String)) :
    (expectedTrace ⟨"", ""⟩ (r :: rs))[0]? = some none := by
  simp [expectedTrace, removalBatch]

/-- From the second iteration on, the `Remove` batch of iteration `n`
(0-based) is exactly the image ID and base ID of build `n - 1`. -/
theorem expectedTrace_get (results : List (String × String))
    (hids : ∀ r ∈ results, r.1 ≠ "" ∧ r.2 ≠ "") :
    ∀ n (w : Window), 1 ≤ n → (hn : n < results.length) →
      (expectedTrace w results)[n]? =
        some (some [(results.get ⟨n - 1, by omega⟩).1,
                    (results.get ⟨n - 1, by omega⟩).2]) := by
  induction results with
  | nil => intro n w h1 hn; simp at hn
  | cons r rs ih =>
    intro n w h1 hn
    match n, h1 with
    | 1, _ =>
      cases rs with
      | nil => simp at hn
      | cons s ss =>
        obtain ⟨hr1, hr2⟩ := hids r (by simp)
        simp only [expectedTrace, List.getElem?_cons_succ, List.getElem?_cons_zero]
        have hb : removalBatch ⟨r.1, r.2⟩ = [r.1, r.2] := by
          simp [removalBatch, hr1, hr2]
        simp [hb, List.get]
    | (m + 2), _ =>
      have hm : 1 ≤ m + 1 := by omega
      have hn2 : m + 1 < rs.length := by
        simp only [List.length_cons] at hn
        omega
      have := ih (fun x hx => hids x (by simp [hx])) (m + 1) ⟨r.1, r.2⟩ hm hn2
      simp only [expectedTrace, List.getElem?_cons_succ]
      rw [this]
      rfl

/-- If a run ends in an error, the error happened in iteration
`trace.length`, and the returned window is that iteration's entry window —
the window never advances past a failed iteration. -/
theorem runPipeline_err_window (dryRun : Bool) (removeOK : List String → Bool)
    (results : List (String × String)) :
    ∀ (w : Window) (tr : List (Option (List String))) (wE : Window) (e : RunErr),
      runPipeline dryRun removeOK w (results.map (fun r => ⟨.ok r, true⟩)) =
        (tr, wE, some e) →
      tr.length < results.length ∧ wE = entryWindow w results tr.length := by
  induction results with
  | nil =>
    intro w tr wE e hrun
    simp only [List.map_nil, runPipeline] at hrun
    cases hrun
  | cons r rs ih =>
    intro w tr wE e hrun
    simp only [List.map_cons, runPipeline] at hrun
    cases hit : pipeIter dryRun removeOK w ⟨.ok r, true⟩ with
    | error e2 =>
      rw [hit] at hrun
      simp only [Prod.mk.injEq] at hrun
      obtain ⟨htr, hw, _⟩ := hrun
      subst htr
      subst hw
      exact ⟨by simp, rfl⟩
    | ok pr =>
      obtain ⟨w2, batch⟩ := pr
      have hw2 : w2 = ⟨r.1, r.2⟩ := by
        simp only [pipeIter] at hit
        split at hit
        · cases hit
        · split at hit
          · cases hit
          · split at hit
            · cases hit
              rfl
            · split at hit
              · cases hit
                rfl
              · cases hit
      rw [hit] at hrun
      simp only at hrun
      cases hrest : runPipeline dryRun removeOK w2 (rs.map (fun r => ⟨.ok r, true⟩)) with
      | mk tr2 rest2 =>
        obtain ⟨wE2, err2⟩ := rest2
        rw [hrest] at hrun
        simp only [Prod.mk.injEq] at hrun
        obtain ⟨htr, hw, herr⟩ := hrun
        subst htr
        subst hw
        subst herr
        obtain ⟨hlen, hwE⟩ := ih w2 tr2 wE2 e hrest
        refine ⟨by simpa using Nat.succ_lt_succ hlen, ?_⟩
        rw [hwE, hw2]
        cases tr2 with
        | nil => rfl
        | cons x xs =>
          simp only [List.length_cons, entryWindow]
          rfl

/-- C1 counterexample: a run over two versions with distinct nonempty IDs.
While processing version 2 (`N = 2`), `Remove` is invoked — and its batch
is exactly version 1's image and base IDs, i.e. version `N-1`'s generation
(there is no version `N-2`), contradicting "invoked for exactly version
N-2's generation and never for N-1's". -/
theorem claim_C1_counterexample :
    runPipeline false (fun _ => true) ⟨"", ""⟩
        [⟨.ok ("img1", "base1"), true⟩, ⟨.ok ("img2", "base2"), true⟩] =
      ([none, some ["img1", "base1"]], ⟨"img2", "base2"⟩, none) := by
  decide

/-- C1 (amended): in a run over builds with nonempty IDs, iteration 1 calls
no `Remove`; every iteration `N ≥ 2` calls `Remove` with exactly the image
and base IDs of iteration `N-1`'s build — the window contents collected
before being overwritten — never `N`'s own; the fully successful run ends
with the window at the last build; and on any failing run (a failing
`Remove` included) the window never advances past the failed iteration. -/
theorem claim_C1_amended (dryRun : Bool) (results : List (String × String))
    (hids : ∀ r ∈ results, r.1 ≠ "" ∧ r.2 ≠ "") :
    runPipeline dryRun (fun _ => true) ⟨"", ""⟩
        (results.map (fun r => ⟨.ok r, true⟩)) =
      (expectedTrace ⟨"", ""⟩ results, lastWindowFrom ⟨"", ""⟩ results, none) ∧
    (∀ r rs, results = r :: rs → (expectedTrace ⟨"", ""⟩ results)[0]? = some none) ∧
    (∀ n, 1 ≤ n → (hn : n < results.length) →
      (expectedTrace ⟨"", ""⟩ results)[n]? =
        some (some [(results.get ⟨n - 1, by omega⟩).1,
                    (results.get ⟨n - 1, by omega⟩).2])) ∧
    (∀ (removeOK : List String → Bool) tr wE e,
      runPipeline dryRun removeOK ⟨"", ""⟩ (results.map (fun r => ⟨.ok r, true⟩)) =
        (tr, wE, some e) →
      tr.length < results.length ∧ wE = entryWindow ⟨"", ""⟩ results tr.length) := by
  refine ⟨runPipeline_ok dryRun results ⟨"", ""⟩ hids, ?_, ?_, ?_⟩
  · rintro r rs rfl
    exact expectedTrace_head r rs
  · exact fun n h1 hn => expectedTrace_get results hids n ⟨"", ""⟩ h1 hn
  · exact fun removeOK tr wE e h =>
      runPipeline_err_window dryRun removeOK results ⟨"", ""⟩ tr wE e h

/-- C1 witness: the amended statement at a concrete three-version run —
iteration 3 removes exactly the IDs of build 2. -/
theorem claim_C1_amended_witness :
    (expectedTrace ⟨"", ""⟩ [("i1", "b1"), ("i2", "b2"), ("i3", "b3")])[2]? =
      some (some ["i2", "b2"]) := by
  have h := (claim_C1_amended false [("i1", "b1"), ("i2", "b2"), ("i3", "b3")]
    (by decide)).2.2.1 2 (by omega) (by decide)
  simpa using h

/-- C4 counterexample: in an otherwise identical two-version run, a failure
of the stale-image `Remove` call turns the run's outcome from success into
the terminal error `remove images: ...` — a cleanup failure that does
change the run's status. -/
theorem claim_C4_counterexample :
    (realMainRun false (fun _ => false) (fun _ => false) ["mimikry/12.3"]
        [⟨.ok ("img1", "base1"), true⟩, ⟨.ok ("img2", "base2"), true⟩]).status =
      some .removeErr ∧
    (realMainRun false (fun _ => true) (fun _ => false) ["mimikry/12.3"]
        [⟨.ok ("img1", "base1"), true⟩, ⟨.ok ("img2", "base2"), true⟩]).status =
      none := by
  decide

/-- C4 (amended): a failure to remove a build directory during the deferred
cleanup is only logged — the run's status, `Remove` trace and final window
are identical whatever the directory-removal outcomes are — whereas a
failure of the per-iteration stale-image `Remove` call surfaces as the
run's terminal error. -/
theorem claim_C4_amended (dryRun : Bool) (removeOK : List String → Bool)
    (rm1 rm2 : String → Bool) (paths : List String) (inputs : List IterIn) :
    ((realMainRun dryRun removeOK rm1 paths inputs).status =
        (realMainRun dryRun removeOK rm2 paths inputs).status ∧
      (realMainRun dryRun removeOK rm1 paths inputs).trace =
        (realMainRun dryRun removeOK rm2 paths inputs).trace ∧
      (realMainRun dryRun removeOK rm1 paths inputs).finalWindow =
        (realMainRun dryRun removeOK rm2 paths inputs).finalWindow) ∧
    (∀ (w : Window) (inp : IterIn) img base,
      inp.build = .ok (img, base) → img ≠ "" → base ≠ "" → inp.pushOK = true →
      removalBatch w ≠ [] → removeOK (removalBatch w) = false →
      pipeIter dryRun removeOK w inp = .error .removeErr) := by
  refine ⟨⟨rfl, rfl, rfl⟩, ?_⟩
  intro w inp img base hb h1 h2 hpush hbatch hrm
  simp only [pipeIter, hb]
  rw [if_neg (by simp [h1, h2])]
  rw [if_neg (by cases dryRun <;> simp [hpush])]
  rw [if_neg (by simpa [List.isEmpty_iff] using hbatch)]
  rw [if_neg (by simp [hrm])]

/-- C4 witness: the amended statement at a concrete iteration — a failing
`Remove` on a nonempty batch aborts with `removeErr`. -/
theorem claim_C4_amended_witness :
    pipeIter false (fun _ => false) ⟨"i1", "b1"⟩ ⟨.ok ("i2", "b2"), true⟩ =
      .error .removeErr :=
  (claim_C4_amended false (fun _ => false) (fun _ => false) (fun _ => false) [] []).2
    ⟨"i1", "b1"⟩ ⟨.ok ("i2", "b2"), true⟩ "i2" "b2" rfl (by decide) (by decide) rfl
    (by decide) rfl

/-! ### The selector's sort is not stable (C7) -/

/-- C7 counterexample: thirteen surviving versions in which the version
parsed from "5" precedes the one parsed from "5.0"; they compare equal
(equal-precision), yet `sort.Sort` emits "5.0" before "5" — equal versions
do not keep their input order, so the sort is not stable (with 13 elements
the pattern-defeating quicksort's pivot swap reorders the equal pair; for
at most 12 it would have fallen back to stable insertion sort). -/
theorem claim_C7_counterexample :
    (wellFormedVersions
        ["5", "1", "2", "3", "5.0", "6", "4", "8", "9", "10", "11", "12", "13"])[0]? =
      some ⟨5, 0, 0, "5"⟩ ∧
    (wellFormedVersions
        ["5", "1", "2", "3", "5.0", "6", "4", "8", "9", "10", "11", "12", "13"])[4]? =
      some ⟨5, 0, 0, "5.0"⟩ ∧
    semverKey ⟨5, 0, 0, "5"⟩ = semverKey ⟨5, 0, 0, "5.0"⟩ ∧
    (sortGo semverLess (wellFormedVersions
        ["5", "1", "2", "3", "5.0", "6", "4", "8", "9", "10", "11", "12", "13"]))[4]? =
      some ⟨5, 0, 0, "5.0"⟩ ∧
    (sortGo semverLess (wellFormedVersions
        ["5", "1", "2", "3", "5.0", "6", "4", "8", "9", "10", "11", "12", "13"]))[5]? =
      some ⟨5, 0, 0, "5"⟩ := by
  decide

/-! ### Position-permutation machinery for the sort -/

theorem swapIdx_invol (i j k : Nat) : swapIdx i j (swapIdx i j k) = k := by
  unfold swapIdx
  split_ifs <;> omega

theorem swapIdx_injective (i j : Nat) : Function.Injective (swapIdx i j) := by
  intro x y h
  have := congrArg (swapIdx i j) h
  rwa [swapIdx_invol, swapIdx_invol] at this

theorem swapIdx_bijective (i j : Nat) : Function.Bijective (swapIdx i j) :=
  ⟨swapIdx_injective i j, fun y => ⟨swapIdx i j y, swapIdx_invol i j y⟩⟩

theorem swapF_get (i j : Nat) (st : Data α) (k : Nat) :
    (swapF i j st).get k = st.get (swapIdx i j k) := by
  show (if k = i then st.get j else if k = j then st.get i else st.get k) =
    st.get (swapIdx i j k)
  unfold swapIdx
  split_ifs <;> rfl

theorem permWithin_refl (a b : Nat) (st : Data α) : PermWithin a b st st :=
  ⟨id, Function.bijective_id, fun _ _ => rfl, fun _ => rfl⟩

theorem permWithin_trans {a b : Nat} {st1 st2 st3 : Data α}
    (h12 : PermWithin a b st1 st2) (h23 : PermWithin a b st2 st3) :
    PermWithin a b st1 st3 := by
  obtain ⟨σ, hσb, hσf, hσg⟩ := h12
  obtain ⟨τ, hτb, hτf, hτg⟩ := h23
  exact ⟨σ ∘ τ, hσb.comp hτb,
    fun k hk => by simp [Function.comp, hτf k hk, hσf k hk],
    fun k => by simp [Function.comp, hτg k, hσg (τ k)]⟩

theorem permWithin_mono {a b a2 b2 : Nat} {st st2 : Data α}
    (ha : a2 ≤ a) (hb : b ≤ b2) (h : PermWithin a b st st2) :
    PermWithin a2 b2 st st2 := by
  obtain ⟨σ, hσb, hσf, hσg⟩ := h
  exact ⟨σ, hσb, fun k hk => hσf k (by omega), hσg⟩

theorem permWithin_swapF {a b i j : Nat} (st : Data α)
    (hi : a ≤ i ∧ i < b) (hj : a ≤ j ∧ j < b) :
    PermWithin a b st (swapF i j st) := by
  refine ⟨swapIdx i j, swapIdx_bijective i j, fun k hk => ?_, swapF_get i j st⟩
  unfold swapIdx
  split_ifs <;> omega

theorem permWithin_outside {a b : Nat} {st st2 : Data α}
    (h : PermWithin a b st st2) {k : Nat} (hk : k < a ∨ b ≤ k) :
    st2.get k = st.get k := by
  obtain ⟨σ, _, hσf, hσg⟩ := h
  rw [hσg k, hσf k hk]

/-- The permutation maps positions of `[a, b)` into `[a, b)`. -/
theorem permWithin_sigma_mem {a b : Nat} {σ : Nat → Nat}
    (hσb : Function.Bijective σ) (hσf : ∀ k, k < a ∨ b ≤ k → σ k = k)
    {k : Nat} (hk : a ≤ k ∧ k < b) : a ≤ σ k ∧ σ k < b := by
  by_contra hout
  have h1 : σ k < a ∨ b ≤ σ k := by omega
  have h2 : σ (σ k) = σ k := hσf (σ k) h1
  have h3 : σ k = k := hσb.1 h2
  omega

theorem permWithin_pointwise {a b : Nat} {st st2 : Data α} {P : α → Prop}
    (h : PermWithin a b st st2)
    (hP : ∀ k, a ≤ k → k < b → P (st.get k)) :
    ∀ k, a ≤ k → k < b → P (st2.get k) := by
  obtain ⟨σ, hσb, hσf, hσg⟩ := h
  intro k hka hkb
  rw [hσg k]
  have := permWithin_sigma_mem hσb hσf ⟨hka, hkb⟩
  exact hP (σ k) this.1 this.2

theorem map_perm_of_maps_into {σ : Nat → Nat} (hinj : Function.Injective σ)
    (l : List Nat) (hnd : l.Nodup) (hmem : ∀ x ∈ l, σ x ∈ l) :
    List.Perm (l.map σ) l := by
  apply List.perm_of_nodup_nodup_toFinset_eq (hnd.map hinj) hnd
  apply Finset.eq_of_subset_of_card_le
  · intro x hx
    rw [List.mem_toFinset, List.mem_map] at hx
    obtain ⟨y, hy, rfl⟩ := hx
    rw [List.mem_toFinset]
    exact hmem y hy
  · rw [List.card_toFinset, List.card_toFinset, hnd.dedup, (hnd.map hinj).dedup,
      List.length_map]

theorem permWithin_rangeList {a b : Nat} {st st2 : Data α}
    (h : PermWithin a b st st2) : List.Perm (rangeList st2 a b) (rangeList st a b) := by
  obtain ⟨σ, hσb, hσf, hσg⟩ := h
  unfold rangeList
  have h1 : (List.range' a (b - a)).map st2.get =
      ((List.range' a (b - a)).map σ).map st.get := by
    rw [List.map_map]
    exact List.map_congr_left fun k _ => hσg k
  rw [h1]
  apply List.Perm.map
  apply map_perm_of_maps_into hσb.1 _ (List.nodup_range' a (b - a))
  intro x hx
  rw [List.mem_range'_1] at hx ⊢
  have := permWithin_sigma_mem hσb hσf (k := x) (by omega)
  omega

theorem semverLess_iff (a b : SemVer) :
    semverLess a b = true ↔
      a.major < b.major ∨ (a.major = b.major ∧
        (a.minor < b.minor ∨ (a.minor = b.minor ∧ a.patch < b.patch))) := by
  simp [semverLess]

theorem semverLess_isSWO : IsSWO semverLess := by
  refine ⟨?_, ?_, ?_⟩
  · intro x y z hxy hyz
    rw [semverLess_iff] at hxy hyz ⊢
    omega
  · intro x y z hxy hyz
    rw [← Bool.not_eq_true] at hxy hyz
    rw [← Bool.not_eq_true]
    rw [semverLess_iff] at hxy hyz
    rw [semverLess_iff]
    omega
  · intro x y hxy
    rw [← Bool.not_eq_true]
    rw [semverLess_iff] at hxy ⊢
    omega

theorem IsSWO.irrefl {less : α → α → Bool} (h : IsSWO less) (x : α) :
    less x x = false := by
  cases hB : less x x with
  | false => rfl
  | true => exact absurd hB (by rw [h.2.2 x x hB]; simp)

/-! ### Insertion sort -/

/-- `insInner` never touches a position above its starting index. -/
theorem insInner_eq_above {less : α → α → Bool} (f : Nat) : ∀ (idx : Nat) (st : Data α)
    (k : Nat), idx < k → (insInner less f idx st).get k = st.get k := by
  intro idx
  induction idx with
  | zero => intro st k _; rfl
  | succ j ih =>
    intro st k hk
    simp only [insInner]
    split
    · rw [ih _ k (by omega), swapF_get]
      unfold swapIdx
      split_ifs <;> first | omega | rfl
    · rfl

/-- The value `insInner` leaves at its starting index is either the old
value there or (when the first guard fired, so the floor is strictly
below) the old value one below, moved up by the first swap. -/
theorem insInner_top {less : α → α → Bool} (f : Nat) (idx : Nat) (st : Data α) :
    (insInner less f idx st).get idx = st.get idx ∨
    (f < idx ∧ (insInner less f idx st).get idx = st.get (idx - 1)) := by
  cases idx with
  | zero => exact Or.inl rfl
  | succ j =>
    simp only [insInner]
    split
    · rename_i hcond
      simp only [Bool.and_eq_true, decide_eq_true_eq] at hcond
      refine Or.inr ⟨hcond.1, ?_⟩
      rw [insInner_eq_above f j _ (j + 1) (by omega), swapF_get]
      unfold swapIdx
      rw [if_pos rfl]
      simp
    · exact Or.inl rfl

/-- `insInner` only permutes positions `[f, idx]`. -/
theorem insInner_permWithin {less : α → α → Bool} (f : Nat) : ∀ (idx : Nat)
    (st : Data α), PermWithin f (idx + 1) st (insInner less f idx st) := by
  intro idx
  induction idx with
  | zero => intro st; exact permWithin_refl _ _ _
  | succ j ih =>
    intro st
    simp only [insInner]
    split
    · rename_i hcond
      simp only [Bool.and_eq_true, decide_eq_true_eq] at hcond
      have h1 : PermWithin f (j + 1 + 1) st (swapF (j + 1) j st) :=
        permWithin_swapF st ⟨by omega, by omega⟩ ⟨by omega, by omega⟩
      exact permWithin_trans h1
        (permWithin_mono (Nat.le_refl f) (by omega) (ih _))
    · exact permWithin_refl _ _ _

/-- The insertion step: if the adjacent pairs strictly below `idx` are in
order, then after `insInner` the pairs up to and including `idx` are. -/
theorem insInner_sorted {less : α → α → Bool} (hswo : IsSWO less) (f : Nat) :
    ∀ (idx : Nat) (st : Data α),
    (∀ k, f < k → k < idx → less (st.get k) (st.get (k - 1)) = false) →
    ∀ k, f < k → k ≤ idx →
      less ((insInner less f idx st).get k) ((insInner less f idx st).get (k - 1)) = false := by
  intro idx
  induction idx with
  | zero => intro st _ k hk1 hk2; omega
  | succ j ih =>
    intro st hpre k hk1 hk2
    simp only [insInner]
    split
    · rename_i hcond
      simp only [Bool.and_eq_true, decide_eq_true_eq] at hcond
      by_cases hk : k ≤ j
      · -- covered by the recursive call
        refine ih (swapF (j + 1) j st) (fun m hm1 hm2 => ?_) k hk1 hk
        rw [swapF_get, swapF_get]
        unfold swapIdx
        rw [if_neg (by omega), if_neg (by omega), if_neg (by omega),
          if_neg (by omega)]
        exact hpre m hm1 (by omega)
      · -- k = j + 1: the top pair of the final state
        have hkak : k = j + 1 := by omega
        subst hkak
        rw [insInner_eq_above f j _ (j + 1) (by omega), swapF_get]
        unfold swapIdx
        rw [if_pos rfl]
        rcases insInner_top f j (swapF (j + 1) j st) with
          htop | ⟨hfj, htop⟩
        · simp only [Nat.add_sub_cancel]
          rw [htop, swapF_get]
          unfold swapIdx
          rw [if_neg (by omega), if_pos rfl]
          exact hswo.2.2 _ _ hcond.2
        · simp only [Nat.add_sub_cancel]
          rw [htop, swapF_get]
          unfold swapIdx
          rw [if_neg (by omega), if_neg (by omega)]
          exact hpre j hfj (by omega)
    · rename_i hcond
      by_cases hk : k ≤ j
      · exact hpre k hk1 (by omega)
      · have hkak : k = j + 1 := by omega
        subst hkak
        simp only [Bool.and_eq_true, decide_eq_true_eq, not_and] at hcond
        by_cases hf : f < j + 1
        · have := hcond hf
          simpa using this
        · omega

/-- The outer insertion-sort loop: given enough fuel and ordered adjacent
pairs strictly below `i`, it permutes `[a,b)` and orders every adjacent
pair in `(a,b)`. -/
theorem insOuter_spec {less : α → α → Bool} (hswo : IsSWO less) (a b : Nat) :
    ∀ (k i : Nat) (st : Data α), b - i ≤ k →
    (∀ m, a < m → m < i → less (st.get m) (st.get (m - 1)) = false) →
    PermWithin a b st (insOuter less a b k i st) ∧
    (∀ m, a < m → m < b →
      less ((insOuter less a b k i st).get m)
        ((insOuter less a b k i st).get (m - 1)) = false) := by
  intro k
  induction k with
  | zero =>
    intro i st hfuel hpre
    simp only [insOuter]
    exact ⟨permWithin_refl _ _ _, fun m hm1 hm2 => hpre m hm1 (by omega)⟩
  | succ k ih =>
    intro i st hfuel hpre
    simp only [insOuter]
    split
    · rename_i hib
      have hrec := ih (i + 1) (insInner less a i st) (by omega)
        (fun m hm1 hm2 => insInner_sorted hswo a i st hpre m hm1 (by omega))
      refine ⟨permWithin_trans ?_ hrec.1, hrec.2⟩
      exact permWithin_mono (Nat.le_refl a) (by omega) (insInner_permWithin a i st)
    · rename_i hib
      exact ⟨permWithin_refl _ _ _, fun m hm1 hm2 => hpre m hm1 (by omega)⟩

/-- Transitivity of the negated comparator turns ordered adjacent pairs
into a fully sorted range. -/
theorem pairs_to_sortedRange {less : α → α → Bool} (hswo : IsSWO less)
    (st : Data α) (a b : Nat)
    (h : ∀ m, a < m → m < b → less (st.get m) (st.get (m - 1)) = false) :
    sortedRange less st a b := by
  intro i j hai hij hjb
  induction j with
  | zero => omega
  | succ j ihj =>
    by_cases hji : j = i
    · subst hji
      have := h (j + 1) (by omega) hjb
      simpa using this
    · have h1 : less (st.get (j + 1)) (st.get j) = false := by
        have := h (j + 1) (by omega) hjb
        simpa using this
      exact hswo.2.1 _ _ _ h1 (ihj (by omega) (by omega))

/-- `insertionSort(data, a, b)` permutes `[a,b)` and sorts it. -/
theorem insertionSortF_spec {less : α → α → Bool} (hswo : IsSWO less)
    (a b : Nat) (st : Data α) :
    PermWithin a b st (insertionSortF less a b st) ∧
    sortedRange less (insertionSortF less a b st) a b := by
  have h := insOuter_spec hswo a b (b - a) (a + 1) st (by omega)
    (fun m hm1 hm2 => by omega)
  exact ⟨h.1, pairs_to_sortedRange hswo _ a b h.2⟩

/-! ### Partition scans -/

/-- The upward partition scan only advances, stays within `j + 1`, skips
only elements `Less` than the pivot, and stops at `j + 1` or at a
non-`Less` element. -/
theorem scanUp_spec {less : α → α → Bool} (st : Data α) (p j : Nat) :
    ∀ (fuel i : Nat), j + 1 - i ≤ fuel → i ≤ j + 1 →
    i ≤ scanUp less st p j fuel i ∧ scanUp less st p j fuel i ≤ j + 1 ∧
    (∀ k, i ≤ k → k < scanUp less st p j fuel i →
      less (st.get k) (st.get p) = true) ∧
    (scanUp less st p j fuel i = j + 1 ∨
      less (st.get (scanUp less st p j fuel i)) (st.get p) = false) := by
  intro fuel
  induction fuel with
  | zero =>
    intro i hfuel hij
    simp only [scanUp]
    exact ⟨Nat.le_refl i, hij, fun k hk1 hk2 => by omega, Or.inl (by omega)⟩
  | succ f ih =>
    intro i hfuel hij
    simp only [scanUp]
    split
    · rename_i hcond
      obtain ⟨h1, h2, h3, h4⟩ := ih (i + 1) (by omega) (by omega)
      refine ⟨by omega, h2, fun k hk1 hk2 => ?_, h4⟩
      by_cases hki : k = i
      · subst hki; exact hcond.2
      · exact h3 k (by omega) hk2
    · rename_i hcond
      refine ⟨Nat.le_refl i, hij, fun k hk1 hk2 => by omega, ?_⟩
      rw [not_and_or] at hcond
      rcases hcond with h | h
      · exact Or.inl (by omega)
      · exact Or.inr (by simpa using h)

/-- The downward partition scan only retreats (not past `i - 1`), skips
only non-`Less` elements, and stops below `i` or at a `Less` element. -/
theorem scanDown_spec {less : α → α → Bool} (st : Data α) (p i : Nat)
    (hi : 1 ≤ i) : ∀ j : Nat,
    scanDown less st p i j ≤ j ∧
    (i - 1 ≤ j → i - 1 ≤ scanDown less st p i j) ∧
    (∀ k, scanDown less st p i j < k → k ≤ j →
      less (st.get k) (st.get p) = false) ∧
    (scanDown less st p i j < i ∨
      less (st.get (scanDown less st p i j)) (st.get p) = true) := by
  intro j
  induction j with
  | zero =>
    simp only [scanDown]
    exact ⟨Nat.le_refl 0, fun h => by omega, fun k hk1 hk2 => by omega,
      Or.inl (by omega)⟩
  | succ j ih =>
    simp only [scanDown]
    split
    · rename_i hcond
      obtain ⟨h1, h2, h3, h4⟩ := ih
      refine ⟨by omega, fun h => h2 (by omega), fun k hk1 hk2 => ?_, h4⟩
      by_cases hkj : k = j + 1
      · subst hkj
        simpa using hcond.2
      · exact h3 k hk1 (by omega)
    · rename_i hcond
      refine ⟨Nat.le_refl _, fun h => by omega, fun k hk1 hk2 => by omega, ?_⟩
      rw [not_and_or] at hcond
      rcases hcond with h | h
      · exact Or.inl (by omega)
      · exact Or.inr (by simpa using h)

/-- The upward scan of `partitionEqual` only advances, stays within
`j + 1`, skips only elements the pivot is not `Less` than, and stops at
`j + 1` or at an element the pivot is `Less` than. -/
theorem scanUpEq_spec {less : α → α → Bool} (st : Data α) (p j : Nat) :
    ∀ (fuel i : Nat), j + 1 - i ≤ fuel → i ≤ j + 1 →
    i ≤ scanUpEq less st p j fuel i ∧ scanUpEq less st p j fuel i ≤ j + 1 ∧
    (∀ k, i ≤ k → k < scanUpEq less st p j fuel i →
      less (st.get p) (st.get k) = false) ∧
    (scanUpEq less st p j fuel i = j + 1 ∨
      less (st.get p) (st.get (scanUpEq less st p j fuel i)) = true) := by
  intro fuel
  induction fuel with
  | zero =>
    intro i hfuel hij
    simp only [scanUpEq]
    exact ⟨Nat.le_refl i, hij, fun k hk1 hk2 => by omega, Or.inl (by omega)⟩
  | succ f ih =>
    intro i hfuel hij
    simp only [scanUpEq]
    split
    · rename_i hcond
      obtain ⟨h1, h2, h3, h4⟩ := ih (i + 1) (by omega) (by omega)
      refine ⟨by omega, h2, fun k hk1 hk2 => ?_, h4⟩
      by_cases hki : k = i
      · subst hki
        simpa using hcond.2
      · exact h3 k (by omega) hk2
    · rename_i hcond
      refine ⟨Nat.le_refl i, hij, fun k hk1 hk2 => by omega, ?_⟩
      rw [not_and_or] at hcond
      rcases hcond with h | h
      · exact Or.inl (by omega)
      · exact Or.inr (by simpa using h)

/-- The downward scan of `partitionEqual` only retreats (not past
`i - 1`), skips only elements the pivot is `Less` than, and stops below
`i` or at an element the pivot is not `Less` than. -/
theorem scanDownEq_spec {less : α → α → Bool} (st : Data α) (p i : Nat)
    (hi : 1 ≤ i) : ∀ j : Nat,
    scanDownEq less st p i j ≤ j ∧
    (i - 1 ≤ j → i - 1 ≤ scanDownEq less st p i j) ∧
    (∀ k, scanDownEq less st p i j < k → k ≤ j →
      less (st.get p) (st.get k) = true) ∧
    (scanDownEq less st p i j < i ∨
      less (st.get p) (st.get (scanDownEq less st p i j)) = false) := by
  intro j
  induction j with
  | zero =>
    simp only [scanDownEq]
    exact ⟨Nat.le_refl 0, fun h => by omega, fun k hk1 hk2 => by omega,
      Or.inl (by omega)⟩
  | succ j ih =>
    simp only [scanDownEq]
    split
    · rename_i hcond
      obtain ⟨h1, h2, h3, h4⟩ := ih
      refine ⟨by omega, fun h => h2 (by omega), fun k hk1 hk2 => ?_, h4⟩
      by_cases hkj : k = j + 1
      · subst hkj
        exact hcond.2
      · exact h3 k hk1 (by omega)
    · rename_i hcond
      refine ⟨Nat.le_refl _, fun h => by omega, fun k hk1 hk2 => by omega, ?_⟩
      rw [not_and_or] at hcond
      rcases hcond with h | h
      · exact Or.inl (by omega)
      · exact Or.inr (by simpa using h)

/-- The swap loop of `partition`: starting from a state whose pivot (at
`p`) already bounds the processed prefix `(p, i)` from above and the
processed suffix `(j, bnd]` from below, it permutes only `[i, j+1)`,
leaves the pivot in place, and returns a split point with everything at or
below it `Less` than the pivot and everything above it not. -/
theorem partLoop_spec {less : α → α → Bool} (p bnd : Nat) :
    ∀ (fuel : Nat) (st : Data α) (i j : Nat),
    j + 1 - i ≤ 2 * fuel → p < i → i ≤ j + 1 → j ≤ bnd →
    (∀ k, p < k → k < i → less (st.get k) (st.get p) = true) →
    (∀ k, j < k → k ≤ bnd → less (st.get k) (st.get p) = false) →
    ∀ (st2 : Data α) (j2 : Nat), partLoop less p fuel st i j = (st2, j2) →
    PermWithin i (j + 1) st st2 ∧
    st2.get p = st.get p ∧
    i - 1 ≤ j2 ∧ j2 ≤ j ∧
    (∀ k, p < k → k ≤ j2 → less (st2.get k) (st2.get p) = true) ∧
    (∀ k, j2 < k → k ≤ bnd → less (st2.get k) (st2.get p) = false) := by
  intro fuel
  induction fuel with
  | zero =>
    intro st i j hfuel hpi hij hjb hL hR st2 j2 heq
    simp only [partLoop, Prod.mk.injEq] at heq
    obtain ⟨h1, h2⟩ := heq
    subst h1; subst h2
    refine ⟨permWithin_refl _ _ _, rfl, by omega, Nat.le_refl j,
      fun k hk1 hk2 => hL k hk1 (by omega), fun k hk1 hk2 => hR k hk1 hk2⟩
  | succ f ih =>
    intro st i j hfuel hpi hij hjb hL hR st2 j2 heq
    obtain ⟨hU1, hU2, hU3, hU4⟩ :=
      @scanUp_spec α less st p j (j + 1 - i) i (Nat.le_refl _) hij
    obtain ⟨hD1, hD2, hD3, hD4⟩ :=
      @scanDown_spec α less st p (scanUp less st p j (j + 1 - i) i) (by omega) j
    simp only [partLoop] at heq
    set i1 := scanUp less st p j (j + 1 - i) i with hi1
    set j1 := scanDown less st p i1 j with hj1
    clear_value i1 j1
    have hD2a : i1 - 1 ≤ j1 := hD2 (by omega)
    split at heq
    · rename_i hgt
      simp only [Prod.mk.injEq] at heq
      obtain ⟨h1, h2⟩ := heq
      subst h1; subst h2
      refine ⟨permWithin_refl _ _ _, rfl, by omega, hD1,
        fun k hk1 hk2 => ?_, fun k hk1 hk2 => ?_⟩
      · by_cases hki : k < i
        · exact hL k hk1 hki
        · exact hU3 k (by omega) (by omega)
      · by_cases hkj : k ≤ j
        · exact hD3 k hk1 hkj
        · exact hR k (by omega) hk2
    · rename_i hgt
      have hle : i1 ≤ j1 := by omega
      have hlt : i1 < j1 := by
        rcases hU4 with h4 | h4
        · omega
        · rcases hD4 with h5 | h5
          · omega
          · by_contra hnc
            have he : i1 = j1 := by omega
            rw [he, h5] at h4
            exact Bool.noConfusion h4
      have hstop1 : less (st.get i1) (st.get p) = false := by
        rcases hU4 with h4 | h4
        · omega
        · exact h4
      have hstop2 : less (st.get j1) (st.get p) = true := by
        rcases hD4 with h5 | h5
        · omega
        · exact h5
      have hgetp : (swapF i1 j1 st).get p = st.get p := by
        rw [swapF_get]
        unfold swapIdx
        rw [if_neg (by omega), if_neg (by omega)]
      have hrec := ih (swapF i1 j1 st) (i1 + 1) (j1 - 1) (by omega)
        (by omega) (by omega) (by omega)
        (fun k hk1 hk2 => by
          rw [hgetp, swapF_get]
          unfold swapIdx
          by_cases hki : k = i1
          · rw [if_pos hki]
            exact hstop2
          · rw [if_neg hki, if_neg (by omega)]
            by_cases hkii : k < i
            · exact hL k hk1 hkii
            · exact hU3 k (by omega) (by omega))
        (fun k hk1 hk2 => by
          rw [hgetp, swapF_get]
          unfold swapIdx
          by_cases hkj : k = j1
          · rw [if_neg (by omega), if_pos hkj]
            exact hstop1
          · rw [if_neg (by omega), if_neg hkj]
            by_cases hkjj : k ≤ j
            · exact hD3 k (by omega) hkjj
            · exact hR k (by omega) hk2)
        st2 j2 heq
      obtain ⟨R1, R2, R3, R4, R5, R6⟩ := hrec
      rw [Nat.add_sub_cancel] at R3
      have hsw : PermWithin i (j + 1) st (swapF i1 j1 st) :=
        permWithin_swapF st ⟨by omega, by omega⟩ ⟨by omega, by omega⟩
      exact ⟨permWithin_trans hsw (permWithin_mono (by omega) (by omega) R1),
        by rw [R2, hgetp], by omega, by omega, R5, R6⟩

theorem swapIdx_fst (i j : Nat) : swapIdx i j i = j := by
  unfold swapIdx
  rw [if_pos rfl]

theorem swapIdx_snd (i j : Nat) : swapIdx i j j = i := by
  unfold swapIdx
  split_ifs <;> omega

theorem swapIdx_other (i j k : Nat) (h1 : k ≠ i) (h2 : k ≠ j) :
    swapIdx i j k = k := by
  unfold swapIdx
  rw [if_neg h1, if_neg h2]

/-- `partition(data, a, b, pivot)`: the result is a permutation of the
input on `[a,b)`, the returned position holds the pivot, everything below
it is `Less` than it and everything above it is not. -/
theorem partitionF_spec {less : α → α → Bool} (a b pivot : Nat) (st : Data α)
    (hab : a < b) (hp1 : a ≤ pivot) (hp2 : pivot < b) :
    ∀ (st3 : Data α) (mid : Nat) (flag : Bool),
    partitionF less a b pivot st = (st3, mid, flag) →
    PermWithin a b st st3 ∧ a ≤ mid ∧ mid < b ∧
    (∀ k, a ≤ k → k < mid → less (st3.get k) (st3.get mid) = true) ∧
    (∀ k, mid < k → k < b → less (st3.get k) (st3.get mid) = false) := by
  intro st3 mid flag heq
  simp only [partitionF] at heq
  obtain ⟨hU1, hU2, hU3, hU4⟩ :=
    @scanUp_spec α less (swapF a pivot st) a (b - 1)
      (b - 1 + 1 - (a + 1)) (a + 1) (Nat.le_refl _) (by omega)
  obtain ⟨hD1, hD2, hD3, hD4⟩ :=
    @scanDown_spec α less (swapF a pivot st) a
      (scanUp less (swapF a pivot st) a (b - 1) (b - 1 + 1 - (a + 1)) (a + 1))
      (by omega) (b - 1)
  set st0 := swapF a pivot st with hst0
  set i1 := scanUp less st0 a (b - 1) (b - 1 + 1 - (a + 1)) (a + 1) with hi1
  set j1 := scanDown less st0 a i1 (b - 1) with hj1
  clear_value i1 j1
  have hU2a : i1 ≤ b := by omega
  have hD2a : i1 - 1 ≤ j1 := hD2 (by omega)
  have h0 : PermWithin a b st st0 :=
    permWithin_swapF st ⟨Nat.le_refl a, hab⟩ ⟨hp1, hp2⟩
  clear_value st0
  split at heq
  · rename_i hgt
    simp only [Prod.mk.injEq] at heq
    obtain ⟨h1, h2, h3⟩ := heq
    subst h1; subst h2
    have hfin : PermWithin a b st0 (swapF j1 a st0) :=
      permWithin_swapF st0 ⟨by omega, by omega⟩ ⟨Nat.le_refl a, hab⟩
    refine ⟨permWithin_trans h0 hfin, by omega, by omega,
      fun k hk1 hk2 => ?_, fun k hk1 hk2 => ?_⟩
    · rw [swapF_get, swapF_get, swapIdx_fst]
      by_cases hka : k = a
      · subst hka
        rw [swapIdx_snd]
        exact hU3 j1 (by omega) (by omega)
      · rw [swapIdx_other _ _ _ (by omega) hka]
        exact hU3 k (by omega) (by omega)
    · rw [swapF_get, swapF_get, swapIdx_fst,
        swapIdx_other _ _ _ (by omega) (by omega)]
      exact hD3 k hk1 (by omega)
  · rename_i hgt
    have hlt : i1 < j1 := by
      rcases hU4 with h4 | h4
      · omega
      · rcases hD4 with h5 | h5
        · omega
        · by_contra hnc
          have he : i1 = j1 := by omega
          rw [he, h5] at h4
          exact Bool.noConfusion h4
    have hstop1 : less (st0.get i1) (st0.get a) = false := by
      rcases hU4 with h4 | h4
      · omega
      · exact h4
    have hstop2 : less (st0.get j1) (st0.get a) = true := by
      rcases hD4 with h5 | h5
      · omega
      · exact h5
    rcases hq : partLoop less a b (swapF i1 j1 st0) (i1 + 1) (j1 - 1) with ⟨st2, j2⟩
    rw [hq] at heq
    simp only [Prod.mk.injEq] at heq
    obtain ⟨h1, h2, h3⟩ := heq
    subst h1; subst h2
    have hgeta : (swapF i1 j1 st0).get a = st0.get a := by
      rw [swapF_get, swapIdx_other _ _ _ (by omega) (by omega)]
    have hPL := partLoop_spec a (b - 1) b (swapF i1 j1 st0) (i1 + 1) (j1 - 1)
      (by omega) (by omega) (by omega) (by omega)
      (fun k hk1 hk2 => by
        rw [hgeta, swapF_get]
        by_cases hki : k = i1
        · subst hki
          rw [swapIdx_fst]
          exact hstop2
        · rw [swapIdx_other _ _ _ hki (by omega)]
          exact hU3 k (by omega) (by omega))
      (fun k hk1 hk2 => by
        rw [hgeta, swapF_get]
        by_cases hkj : k = j1
        · subst hkj
          rw [swapIdx_snd]
          exact hstop1
        · rw [swapIdx_other _ _ _ (by omega) hkj]
          exact hD3 k (by omega) hk2)
      st2 j2 hq
    obtain ⟨R1, R2, R3, R4, R5, R6⟩ := hPL
    rw [Nat.add_sub_cancel] at R3
    have hs1 : PermWithin a b st0 (swapF i1 j1 st0) :=
      permWithin_swapF st0 ⟨by omega, by omega⟩ ⟨by omega, by omega⟩
    have hfin : PermWithin a b st2 (swapF j2 a st2) :=
      permWithin_swapF st2 ⟨by omega, by omega⟩ ⟨Nat.le_refl a, hab⟩
    refine ⟨permWithin_trans h0 (permWithin_trans hs1 (permWithin_trans
        (permWithin_mono (by omega) (by omega) R1) hfin)),
      by omega, by omega, fun k hk1 hk2 => ?_, fun k hk1 hk2 => ?_⟩
    · rw [swapF_get, swapF_get, swapIdx_fst]
      by_cases hka : k = a
      · subst hka
        rw [swapIdx_snd]
        exact R5 j2 (by omega) (Nat.le_refl j2)
      · rw [swapIdx_other _ _ _ (by omega) hka]
        exact R5 k (by omega) (by omega)
    · rw [swapF_get, swapF_get, swapIdx_fst,
        swapIdx_other _ _ _ (by omega) (by omega)]
      exact R6 k hk1 (by omega)

/-- The swap loop of `partitionEqual`: starting from a state whose pivot
(at `p`) already fails-to-dominate the processed prefix and strictly
dominates the processed suffix, it permutes only `[i, j+1)`, leaves the
pivot in place, and returns a split point with the pivot not `Less` than
anything below it and `Less` than everything from it on. -/
theorem partEqLoop_spec {less : α → α → Bool} (p bnd : Nat) :
    ∀ (fuel : Nat) (st : Data α) (i j : Nat),
    j + 1 - i ≤ 2 * fuel → p < i → i ≤ j + 1 → j ≤ bnd →
    (∀ k, p < k → k < i → less (st.get p) (st.get k) = false) →
    (∀ k, j < k → k ≤ bnd → less (st.get p) (st.get k) = true) →
    ∀ (st2 : Data α) (i2 : Nat), partEqLoop less p fuel st i j = (st2, i2) →
    PermWithin i (j + 1) st st2 ∧
    st2.get p = st.get p ∧
    i ≤ i2 ∧ i2 ≤ j + 1 ∧
    (∀ k, p < k → k < i2 → less (st2.get p) (st2.get k) = false) ∧
    (∀ k, i2 ≤ k → k ≤ bnd → less (st2.get p) (st2.get k) = true) := by
  intro fuel
  induction fuel with
  | zero =>
    intro st i j hfuel hpi hij hjb hL hR st2 i2 heq
    simp only [partEqLoop, Prod.mk.injEq] at heq
    obtain ⟨h1, h2⟩ := heq
    subst h1; subst h2
    refine ⟨permWithin_refl _ _ _, rfl, Nat.le_refl i, hij,
      fun k hk1 hk2 => hL k hk1 hk2, fun k hk1 hk2 => hR k (by omega) hk2⟩
  | succ f ih =>
    intro st i j hfuel hpi hij hjb hL hR st2 i2 heq
    obtain ⟨hU1, hU2, hU3, hU4⟩ :=
      @scanUpEq_spec α less st p j (j + 1 - i) i (Nat.le_refl _) hij
    obtain ⟨hD1, hD2, hD3, hD4⟩ :=
      @scanDownEq_spec α less st p
        (scanUpEq less st p j (j + 1 - i) i) (by omega) j
    simp only [partEqLoop] at heq
    set i1 := scanUpEq less st p j (j + 1 - i) i with hi1
    set j1 := scanDownEq less st p i1 j with hj1
    clear_value i1 j1
    have hD2a : i1 - 1 ≤ j1 := hD2 (by omega)
    split at heq
    · rename_i hgt
      simp only [Prod.mk.injEq] at heq
      obtain ⟨h1, h2⟩ := heq
      subst h1; subst h2
      refine ⟨permWithin_refl _ _ _, rfl, hU1, hU2,
        fun k hk1 hk2 => ?_, fun k hk1 hk2 => ?_⟩
      · by_cases hki : k < i
        · exact hL k hk1 hki
        · exact hU3 k (by omega) hk2
      · by_cases hkj : k ≤ j
        · exact hD3 k (by omega) hkj
        · exact hR k (by omega) hk2
    · rename_i hgt
      have hlt : i1 < j1 := by
        rcases hU4 with h4 | h4
        · omega
        · rcases hD4 with h5 | h5
          · omega
          · by_contra hnc
            have he : i1 = j1 := by omega
            rw [he, h5] at h4
            exact Bool.noConfusion h4
      have hstop1 : less (st.get p) (st.get i1) = true := by
        rcases hU4 with h4 | h4
        · omega
        · exact h4
      have hstop2 : less (st.get p) (st.get j1) = false := by
        rcases hD4 with h5 | h5
        · omega
        · exact h5
      have hgetp : (swapF i1 j1 st).get p = st.get p := by
        rw [swapF_get, swapIdx_other _ _ _ (by omega) (by omega)]
      have hrec := ih (swapF i1 j1 st) (i1 + 1) (j1 - 1) (by omega)
        (by omega) (by omega) (by omega)
        (fun k hk1 hk2 => by
          rw [hgetp, swapF_get]
          by_cases hki : k = i1
          · subst hki
            rw [swapIdx_fst]
            exact hstop2
          · rw [swapIdx_other _ _ _ hki (by omega)]
            by_cases hkii : k < i
            · exact hL k hk1 hkii
            · exact hU3 k (by omega) (by omega))
        (fun k hk1 hk2 => by
          rw [hgetp, swapF_get]
          by_cases hkj : k = j1
          · subst hkj
            rw [swapIdx_snd]
            exact hstop1
          · rw [swapIdx_other _ _ _ (by omega) hkj]
            by_cases hkjj : k ≤ j
            · exact hD3 k (by omega) hkjj
            · exact hR k (by omega) hk2)
        st2 i2 heq
      obtain ⟨R1, R2, R3, R4, R5, R6⟩ := hrec
      have hsw : PermWithin i (j + 1) st (swapF i1 j1 st) :=
        permWithin_swapF st ⟨by omega, by omega⟩ ⟨by omega, by omega⟩
      exact ⟨permWithin_trans hsw (permWithin_mono (by omega) (by omega) R1),
        by rw [R2, hgetp], by omega, by omega, R5, R6⟩

/-- `partitionEqual(data, a, b, pivot)`: the result permutes `[a,b)`, the
pivot value sits at `a`, the pivot is not `Less` than anything strictly
before the returned split and is `Less` than everything from the split on. -/
theorem partitionEqualF_spec {less : α → α → Bool} (a b pivot : Nat)
    (st : Data α) (hab : a < b) (hp1 : a ≤ pivot) (hp2 : pivot < b) :
    ∀ (st2 : Data α) (mid : Nat), partitionEqualF less a b pivot st = (st2, mid) →
    PermWithin a b st st2 ∧ a + 1 ≤ mid ∧ mid ≤ b ∧
    st2.get a = st.get pivot ∧
    (∀ k, a < k → k < mid → less (st2.get a) (st2.get k) = false) ∧
    (∀ k, mid ≤ k → k < b → less (st2.get a) (st2.get k) = true) := by
  intro st2 mid heq
  simp only [partitionEqualF] at heq
  have h0 : PermWithin a b st (swapF a pivot st) :=
    permWithin_swapF st ⟨Nat.le_refl a, hab⟩ ⟨hp1, hp2⟩
  have hPL := partEqLoop_spec a (b - 1) b (swapF a pivot st) (a + 1) (b - 1)
    (by omega) (by omega) (by omega) (Nat.le_refl _)
    (fun k hk1 hk2 => by omega)
    (fun k hk1 hk2 => by omega)
    st2 mid heq
  obtain ⟨R1, R2, R3, R4, R5, R6⟩ := hPL
  refine ⟨permWithin_trans h0 (permWithin_mono (by omega) (by omega) R1),
    R3, by omega, ?_, R5, fun k hk1 hk2 => R6 k hk1 (by omega)⟩
  rw [R2, swapF_get, swapIdx_fst]

/-! ### Heap sort -/

/-- The child `siftDown` compares the root against: the right child when it
exists and is the larger, the left child otherwise. -/
def sdChild (less : α → α → Bool) (hi first root : Nat) (st : Data α) : Nat :=
  let child := 2 * root + 1
  if child + 1 < hi && less (st.get (first + child)) (st.get (first + child + 1))
  then child + 1 else child

theorem siftDownF_succ {less : α → α → Bool} (hi first k root : Nat)
    (st : Data α) :
    siftDownF less hi first (k + 1) root st =
      if 2 * root + 1 < hi then
        (if !less (st.get (first + root)) (st.get (first + sdChild less hi first root st))
         then st
         else siftDownF less hi first k (sdChild less hi first root st)
           (swapF (first + root) (first + sdChild less hi first root st) st))
      else st := rfl

theorem sdChild_cases {less : α → α → Bool} (hi first root : Nat) (st : Data α) :
    sdChild less hi first root st = 2 * root + 1 ∨
    sdChild less hi first root st = 2 * root + 1 + 1 := by
  simp only [sdChild]
  split
  · exact Or.inr rfl
  · exact Or.inl rfl

theorem sdChild_lt {less : α → α → Bool} (hi first root : Nat) (st : Data α)
    (h : 2 * root + 1 < hi) : sdChild less hi first root st < hi := by
  simp only [sdChild]
  split
  · rename_i hc
    simp only [Bool.and_eq_true, decide_eq_true_eq] at hc
    omega
  · exact h

/-- The selected child dominates the left child. -/
theorem sdChild_max1 {less : α → α → Bool} (hswo : IsSWO less)
    (hi first root : Nat) (st : Data α) :
    less (st.get (first + sdChild less hi first root st))
      (st.get (first + (2 * root + 1))) = false := by
  simp only [sdChild]
  split
  · rename_i hc
    simp only [Bool.and_eq_true, decide_eq_true_eq] at hc
    exact hswo.2.2 _ _ hc.2
  · exact hswo.irrefl _

/-- The selected child dominates the right child when that exists. -/
theorem sdChild_max2 {less : α → α → Bool} (hswo : IsSWO less)
    (hi first root : Nat) (st : Data α) (h2 : 2 * root + 1 + 1 < hi) :
    less (st.get (first + sdChild less hi first root st))
      (st.get (first + (2 * root + 1) + 1)) = false := by
  simp only [sdChild]
  split
  · exact hswo.irrefl _
  · rename_i hc
    simp only [Bool.and_eq_true, decide_eq_true_eq, not_and] at hc
    have := hc h2
    simpa using this

/-- `siftDown` leaves every position outside the root and its strict
descendants unchanged. -/
theorem siftDownF_out {less : α → α → Bool} (hi first : Nat) :
    ∀ (fuel root : Nat) (st : Data α) (k : Nat), k ≠ root → k < 2 * root + 1 →
    (siftDownF less hi first fuel root st).get (first + k) = st.get (first + k) := by
  intro fuel
  induction fuel with
  | zero => intro root st k _ _; rfl
  | succ f ih =>
    intro root st k hk1 hk2
    rw [siftDownF_succ]
    split
    · split
      · rfl
      · rcases @sdChild_cases α less hi first root st with hc | hc <;>
        · rw [ih (sdChild less hi first root st) _ k (by omega) (by omega),
            swapF_get, swapIdx_other _ _ _ (by omega) (by omega)]
    · rfl

/-- `siftDown`: given that every parent strictly below the root already
dominates its children, the result permutes `[first, first+hi)`, the heap
property holds from the root down, and the root holds its old value or an
old child value. -/
theorem siftDownF_spec {less : α → α → Bool} (hswo : IsSWO less)
    (hi first : Nat) :
    ∀ (fuel root : Nat) (st : Data α), hi - root ≤ fuel →
    (∀ r c, root < r → c < hi → (c = 2 * r + 1 ∨ c = 2 * r + 2) →
      less (st.get (first + r)) (st.get (first + c)) = false) →
    PermWithin first (first + hi) st (siftDownF less hi first fuel root st) ∧
    (∀ r c, root ≤ r → c < hi → (c = 2 * r + 1 ∨ c = 2 * r + 2) →
      less ((siftDownF less hi first fuel root st).get (first + r))
        ((siftDownF less hi first fuel root st).get (first + c)) = false) ∧
    ((siftDownF less hi first fuel root st).get (first + root) =
        st.get (first + root) ∨
      ∃ c, (c = 2 * root + 1 ∨ c = 2 * root + 2) ∧ c < hi ∧
        (siftDownF less hi first fuel root st).get (first + root) =
          st.get (first + c)) := by
  intro fuel
  induction fuel with
  | zero =>
    intro root st hfuel hpre
    simp only [siftDownF]
    exact ⟨permWithin_refl _ _ _, fun r c hr hc hcc => by omega, Or.inl trivial⟩
  | succ f ih =>
    intro root st hfuel hpre
    rw [siftDownF_succ]
    by_cases hch : 2 * root + 1 < hi
    · rw [if_pos hch]
      have hcs := @sdChild_cases α less hi first root st
      have hclt := @sdChild_lt α less hi first root st hch
      have hm1 := sdChild_max1 hswo hi first root st
      have hm2 := fun h => sdChild_max2 hswo hi first root st h
      set c2 := sdChild less hi first root st with hc2def
      clear_value c2
      split
      · rename_i hns
        have hnsF : less (st.get (first + root)) (st.get (first + c2)) = false := by
          cases hB : less (st.get (first + root)) (st.get (first + c2)) with
          | true => rw [hB] at hns; exact absurd hns (by simp)
          | false => rfl
        refine ⟨permWithin_refl _ _ _, fun r c hr hc hcc => ?_, Or.inl rfl⟩
        by_cases hrr : root < r
        · exact hpre r c hrr hc hcc
        · have hre : r = root := by omega
          subst hre
          have hns2 : less (st.get (first + r)) (st.get (first + (2 * r + 1))) = false :=
            hswo.2.1 _ _ _ hnsF hm1
          have hns3 : 2 * r + 2 < hi →
              less (st.get (first + r)) (st.get (first + (2 * r + 2))) = false := by
            intro h2
            have hm2a := hm2 (by omega)
            rw [show first + (2 * r + 1) + 1 = first + (2 * r + 2) by omega] at hm2a
            exact hswo.2.1 _ _ _ hnsF hm2a
          rcases hcc with hcv | hcv
          · subst hcv; exact hns2
          · subst hcv; exact hns3 hc
      · rename_i hsw
        have hswT : less (st.get (first + root)) (st.get (first + c2)) = true := by
          cases hB : less (st.get (first + root)) (st.get (first + c2)) with
          | false => exact absurd (by simp [hB]) hsw
          | true => rfl
        have hpre2 : ∀ r c, c2 < r → c < hi → (c = 2 * r + 1 ∨ c = 2 * r + 2) →
            less ((swapF (first + root) (first + c2) st).get (first + r))
              ((swapF (first + root) (first + c2) st).get (first + c)) = false := by
          intro r c hr hc hcc
          rw [swapF_get, swapF_get, swapIdx_other _ _ _ (by omega) (by omega),
            swapIdx_other _ _ _ (by omega) (by omega)]
          exact hpre r c (by omega) hc hcc
        obtain ⟨P1, P2, P3⟩ :=
          ih c2 (swapF (first + root) (first + c2) st) (by omega) hpre2
        have hroot : (siftDownF less hi first f c2
            (swapF (first + root) (first + c2) st)).get (first + root) =
            st.get (first + c2) := by
          rw [siftDownF_out hi first f c2 _ root (by omega) (by omega),
            swapF_get, swapIdx_fst]
        have hother : ∀ c, c ≠ c2 → c < 2 * c2 + 1 → c ≠ root →
            (siftDownF less hi first f c2
              (swapF (first + root) (first + c2) st)).get (first + c) =
            st.get (first + c) := by
          intro c h1 h2 h3
          rw [siftDownF_out hi first f c2 _ c h1 h2, swapF_get,
            swapIdx_other _ _ _ (by omega) (by omega)]
        have hswp : PermWithin first (first + hi) st
            (swapF (first + root) (first + c2) st) :=
          permWithin_swapF st ⟨by omega, by omega⟩ ⟨by omega, by omega⟩
        refine ⟨permWithin_trans hswp P1, fun r c hr hc hcc => ?_,
          Or.inr ⟨c2, by omega, hclt, hroot⟩⟩
        by_cases hr1 : c2 ≤ r
        · exact P2 r c hr1 hc hcc
        · by_cases hr2 : r = root
          · subst hr2
            by_cases hcx : c = c2
            · subst hcx
              rw [hroot]
              rcases P3 with hp | ⟨c1, hc11, hc12, hp⟩
              · rw [hp, swapF_get, swapIdx_snd]
                exact hswo.2.2 _ _ hswT
              · rw [hp, swapF_get, swapIdx_other _ _ _ (by omega) (by omega)]
                exact hpre c c1 (by omega) hc12 hc11
            · have hcu := hother c hcx (by omega) (by omega)
              rw [hroot, hcu]
              rcases hcc with hcv | hcv
              · subst hcv; exact hm1
              · subst hcv
                have hm2a := hm2 (by omega)
                rw [show first + (2 * r + 1) + 1 = first + (2 * r + 2) by omega]
                  at hm2a
                exact hm2a
          · have hru := hother r (by omega) (by omega) hr2
            have hcu := hother c (by omega) (by omega) (by omega)
            rw [hru, hcu]
            exact hpre r c (by omega) hc hcc
    · rw [if_neg hch]
      refine ⟨permWithin_refl _ _ _, fun r c hr hc hcc => ?_, Or.inl rfl⟩
      by_cases hrr : root < r
      · exact hpre r c hrr hc hcc
      · omega

/-- In a max-heap the root dominates every node. -/
theorem heap_root_max {less : α → α → Bool} (hswo : IsSWO less)
    (hi first : Nat) (st : Data α)
    (hheap : ∀ r c, c < hi → (c = 2 * r + 1 ∨ c = 2 * r + 2) →
      less (st.get (first + r)) (st.get (first + c)) = false) :
    ∀ k, k < hi → less (st.get (first + 0)) (st.get (first + k)) = false := by
  intro k
  induction k using Nat.strong_induction_on with
  | _ k ihk =>
    intro hk
    by_cases hk0 : k = 0
    · subst hk0
      exact hswo.irrefl _
    · have hp : less (st.get (first + (k - 1) / 2)) (st.get (first + k)) = false :=
        hheap ((k - 1) / 2) k hk (by omega)
      have hr : less (st.get (first + 0)) (st.get (first + (k - 1) / 2)) = false :=
        ihk ((k - 1) / 2) (by omega) (by omega)
      exact hswo.2.1 _ _ _ hr hp

/-- The heap-construction loop: once all parents above `i` dominate their
children, running `siftDown` from `i` down to `0` permutes the range and
produces a full max-heap. -/
theorem heapBuild_spec {less : α → α → Bool} (hswo : IsSWO less)
    (hi first : Nat) :
    ∀ (i : Nat) (st : Data α),
    (∀ r c, i < r → c < hi → (c = 2 * r + 1 ∨ c = 2 * r + 2) →
      less (st.get (first + r)) (st.get (first + c)) = false) →
    PermWithin first (first + hi) st (heapBuild less hi first i st) ∧
    (∀ r c, c < hi → (c = 2 * r + 1 ∨ c = 2 * r + 2) →
      less ((heapBuild less hi first i st).get (first + r))
        ((heapBuild less hi first i st).get (first + c)) = false) := by
  intro i
  induction i with
  | zero =>
    intro st hpre
    obtain ⟨P1, P2, _⟩ := siftDownF_spec hswo hi first hi 0 st (Nat.le_refl hi)
      (fun r c hr hc hcc => hpre r c hr hc hcc)
    exact ⟨P1, fun r c hc hcc => P2 r c (Nat.zero_le r) hc hcc⟩
  | succ i ih =>
    intro st hpre
    obtain ⟨P1, P2, _⟩ := siftDownF_spec hswo hi first hi (i + 1) st (by omega)
      (fun r c hr hc hcc => hpre r c hr hc hcc)
    obtain ⟨Q1, Q2⟩ := ih (siftDownF less hi first hi (i + 1) st)
      (fun r c hr hc hcc => P2 r c (by omega) hc hcc)
    exact ⟨permWithin_trans P1 Q1, Q2⟩

/-- The pop loop of `heapSort`: a heap on `[0, i]` followed by a sorted
tail dominating it becomes a fully sorted range, by a permutation of
`[first, first+n)`. -/
theorem heapPop_spec {less : α → α → Bool} (hswo : IsSWO less) (first n : Nat) :
    ∀ (i : Nat) (st : Data α), i < n →
    (∀ r c, c < i + 1 → (c = 2 * r + 1 ∨ c = 2 * r + 2) →
      less (st.get (first + r)) (st.get (first + c)) = false) →
    (∀ m m2, i < m → m < m2 → m2 < n →
      less (st.get (first + m2)) (st.get (first + m)) = false) →
    (∀ p q, p ≤ i → i < q → q < n →
      less (st.get (first + q)) (st.get (first + p)) = false) →
    PermWithin first (first + n) st (heapPop less first i st) ∧
    (∀ m m2, m < m2 → m2 < n →
      less ((heapPop less first i st).get (first + m2))
        ((heapPop less first i st).get (first + m)) = false) := by
  intro i
  induction i with
  | zero =>
    intro st hin hheap htail hdom
    have hid : ∀ k, (heapPop less first 0 st).get k = st.get k := by
      intro k
      show (swapF first first st).get k = st.get k
      rw [swapF_get]
      congr 1
      unfold swapIdx
      split_ifs <;> omega
    constructor
    · exact ⟨id, Function.bijective_id, fun k hk => rfl, fun k => hid k⟩
    · intro m m2 hm hm2
      rw [hid, hid]
      by_cases hm0 : m = 0
      · subst hm0
        exact hdom 0 m2 (Nat.le_refl 0) (by omega) hm2
      · exact htail m m2 (by omega) hm hm2
  | succ i ih =>
    intro st hin hheap htail hdom
    have hstep : heapPop less first (i + 1) st =
        heapPop less first i (siftDownF less (i + 1) first (i + 1) 0
          (swapF first (first + (i + 1)) st)) := rfl
    rw [hstep]
    have hmax0 : ∀ k, k < i + 2 →
        less (st.get first) (st.get (first + k)) = false := by
      intro k hk
      have := heap_root_max hswo (i + 2) first st
        (fun r c hc hcc => hheap r c (by omega) hcc) k hk
      rwa [Nat.add_zero] at this
    obtain ⟨Q1, Q2, _⟩ := siftDownF_spec hswo (i + 1) first (i + 1) 0
      (swapF first (first + (i + 1)) st) (Nat.le_refl _)
      (fun r c hr hc hcc => by
        rw [swapF_get, swapF_get, swapIdx_other _ _ _ (by omega) (by omega),
          swapIdx_other _ _ _ (by omega) (by omega)]
        exact hheap r c (by omega) hcc)
    have hb_out : ∀ m, i + 1 ≤ m →
        (siftDownF less (i + 1) first (i + 1) 0
          (swapF first (first + (i + 1)) st)).get (first + m) =
        (swapF first (first + (i + 1)) st).get (first + m) := by
      intro m hm
      exact permWithin_outside Q1 (Or.inr (by omega))
    have hb_top : (siftDownF less (i + 1) first (i + 1) 0
        (swapF first (first + (i + 1)) st)).get (first + (i + 1)) =
        st.get first := by
      rw [hb_out (i + 1) (Nat.le_refl _), swapF_get, swapIdx_snd]
    have hb_tail : ∀ m, i + 1 < m →
        (siftDownF less (i + 1) first (i + 1) 0
          (swapF first (first + (i + 1)) st)).get (first + m) =
        st.get (first + m) := by
      intro m hm
      rw [hb_out m (by omega), swapF_get,
        swapIdx_other _ _ _ (by omega) (by omega)]
    set stb := siftDownF less (i + 1) first (i + 1) 0
      (swapF first (first + (i + 1)) st) with hstb
    have htail2 : ∀ m m2, i < m → m < m2 → m2 < n →
        less (stb.get (first + m2)) (stb.get (first + m)) = false := by
      intro m m2 hm hmm hm2
      by_cases hme : m = i + 1
      · subst hme
        rw [hb_top, hb_tail m2 (by omega)]
        have := hdom 0 m2 (by omega) (by omega) hm2
        rwa [Nat.add_zero] at this
      · rw [hb_tail m (by omega), hb_tail m2 (by omega)]
        exact htail m m2 (by omega) hmm hm2
    have hdom2 : ∀ p q, p ≤ i → i < q → q < n →
        less (stb.get (first + q)) (stb.get (first + p)) = false := by
      intro p q hp hq hqn
      by_cases hq1 : q = i + 1
      · subst hq1
        rw [hb_top]
        refine permWithin_pointwise
          (P := fun v => less (st.get first) v = false) Q1 ?_
          (first + p) (by omega) (by omega)
        intro k hk1 hk2
        by_cases hkf : k = first
        · subst hkf
          rw [swapF_get, swapIdx_fst]
          exact hmax0 (i + 1) (by omega)
        · rw [swapF_get, swapIdx_other _ _ _ hkf (by omega),
            show k = first + (k - first) by omega]
          exact hmax0 (k - first) (by omega)
      · rw [hb_tail q (by omega)]
        refine permWithin_pointwise
          (P := fun v => less (st.get (first + q)) v = false) Q1 ?_
          (first + p) (by omega) (by omega)
        intro k hk1 hk2
        by_cases hkf : k = first
        · subst hkf
          rw [swapF_get, swapIdx_fst]
          exact hdom (i + 1) q (Nat.le_refl _) (by omega) hqn
        · rw [swapF_get, swapIdx_other _ _ _ hkf (by omega),
            show k = first + (k - first) by omega]
          exact hdom (k - first) q (by omega) (by omega) hqn
    obtain ⟨I1, I2⟩ := ih stb (by omega)
      (fun r c hc hcc => Q2 r c (Nat.zero_le r) hc hcc) htail2 hdom2
    constructor
    · have hsw : PermWithin first (first + n) st
          (swapF first (first + (i + 1)) st) :=
        permWithin_swapF st ⟨Nat.le_refl first, by omega⟩ ⟨by omega, by omega⟩
      exact permWithin_trans hsw (permWithin_trans
        (permWithin_mono (Nat.le_refl first) (by omega) Q1) I1)
    · exact I2

/-- `heapSort(data, a, b)` permutes `[a,b)` and sorts it. -/
theorem heapSortF_spec {less : α → α → Bool} (hswo : IsSWO less)
    (a b : Nat) (st : Data α) (hab : a < b) :
    PermWithin a b st (heapSortF less a b st) ∧
    sortedRange less (heapSortF less a b st) a b := by
  have hstep : heapSortF less a b st =
      heapPop less a (b - a - 1)
        (heapBuild less (b - a) a ((b - a - 1) / 2) st) := rfl
  rw [hstep]
  obtain ⟨B1, B2⟩ := heapBuild_spec hswo (b - a) a ((b - a - 1) / 2) st
    (fun r c hr hc hcc => by omega)
  obtain ⟨P1, P2⟩ := heapPop_spec hswo a (b - a) (b - a - 1)
    (heapBuild less (b - a) a ((b - a - 1) / 2) st) (by omega)
    (fun r c hc hcc => B2 r c (by omega) hcc)
    (fun m m2 hm hmm hm2 => by omega)
    (fun p q hp hq hqn => by omega)
  constructor
  · have hc := permWithin_trans B1 P1
    rwa [show a + (b - a) = b by omega] at hc
  · intro i j hai hij hjb
    have hs := P2 (i - a) (j - a) (by omega) (by omega)
    rwa [show a + (j - a) = j by omega, show a + (i - a) = i by omega] at hs

/-! ### Partial insertion sort -/

/-- The scan of `partialInsertionSort` only advances, stays within `b`,
certifies the skipped adjacent pairs ordered, and stops at `b` or at an
out-of-order pair. -/
theorem pisScan_spec {less : α → α → Bool} (b : Nat) (st : Data α) :
    ∀ (fuel i : Nat), b - i ≤ fuel → i ≤ b →
    i ≤ pisScan less b st fuel i ∧ pisScan less b st fuel i ≤ b ∧
    (∀ k, i ≤ k → k < pisScan less b st fuel i →
      less (st.get k) (st.get (k - 1)) = false) ∧
    (pisScan less b st fuel i = b ∨
      less (st.get (pisScan less b st fuel i))
        (st.get (pisScan less b st fuel i - 1)) = true) := by
  intro fuel
  induction fuel with
  | zero =>
    intro i hfuel hib
    simp only [pisScan]
    exact ⟨Nat.le_refl i, hib, fun k hk1 hk2 => by omega, Or.inl (by omega)⟩
  | succ f ih =>
    intro i hfuel hib
    simp only [pisScan]
    split
    · rename_i hilt
      split
      · rename_i hcond
        have hcF : less (st.get i) (st.get (i - 1)) = false := by
          cases hB : less (st.get i) (st.get (i - 1)) with
          | true => rw [hB] at hcond; exact absurd hcond (by simp)
          | false => rfl
        obtain ⟨h1, h2, h3, h4⟩ := ih (i + 1) (by omega) (by omega)
        refine ⟨by omega, h2, fun k hk1 hk2 => ?_, h4⟩
        by_cases hki : k = i
        · subst hki; exact hcF
        · exact h3 k (by omega) hk2
      · rename_i hcond
        have hcT : less (st.get i) (st.get (i - 1)) = true := by
          cases hB : less (st.get i) (st.get (i - 1)) with
          | false => exact absurd (by simp [hB]) hcond
          | true => rfl
        exact ⟨Nat.le_refl i, hib, fun k hk1 hk2 => by omega, Or.inr hcT⟩
    · rename_i hilt
      exact ⟨Nat.le_refl i, hib, fun k hk1 hk2 => by omega, Or.inl (by omega)⟩

/-- The rightward shift loop of `partialInsertionSort` permutes only
`[j-1, b)`. -/
theorem shiftRight_permWithin {less : α → α → Bool} (b : Nat) :
    ∀ (fuel j : Nat) (st : Data α), 1 ≤ j →
    PermWithin (j - 1) b st (shiftRight less b fuel j st) := by
  intro fuel
  induction fuel with
  | zero => intro j st hj; exact permWithin_refl _ _ _
  | succ f ih =>
    intro j st hj
    simp only [shiftRight]
    split
    · split
      · rename_i hjb hcond
        have hsw : PermWithin (j - 1) b st (swapF j (j - 1) st) :=
          permWithin_swapF st ⟨by omega, by omega⟩ ⟨by omega, by omega⟩
        exact permWithin_trans hsw
          (permWithin_mono (by omega) (Nat.le_refl b) (ih (j + 1) _ (by omega)))
      · exact permWithin_refl _ _ _
    · exact permWithin_refl _ _ _

/-- Under the left-boundary invariant the floor-`0` inner insertion loop of
`partialInsertionSort` never crosses `a`: it equals the floor-`a` loop. -/
theorem insInner_floor_switch {less : α → α → Bool} (a : Nat) (ha : 1 ≤ a) :
    ∀ (idx : Nat) (st : Data α), a ≤ idx →
    (∀ m, a ≤ m → m ≤ idx → less (st.get m) (st.get (a - 1)) = false) →
    insInner less 0 idx st = insInner less a idx st := by
  intro idx
  induction idx with
  | zero => intro st hai hpre; omega
  | succ j ih =>
    intro st hai hpre
    simp only [insInner]
    by_cases haj : a ≤ j
    · cases hB : less (st.get (j + 1)) (st.get j) with
      | true =>
        rw [if_pos (by simp [hB]), if_pos (by simp [hB]; omega)]
        refine ih (swapF (j + 1) j st) haj (fun m hm1 hm2 => ?_)
        have e1 : (swapF (j + 1) j st).get (a - 1) = st.get (a - 1) := by
          rw [swapF_get, swapIdx_other _ _ _ (by omega) (by omega)]
        rw [e1, swapF_get]
        by_cases hmj : m = j
        · rw [hmj, swapIdx_snd]
          exact hpre (j + 1) (by omega) (Nat.le_refl _)
        · rw [swapIdx_other _ _ _ (by omega) hmj]
          exact hpre m hm1 (by omega)
      | false =>
        rw [if_neg (by simp [hB]), if_neg (by simp [hB])]
    · have hae : a = j + 1 := by omega
      have hf := hpre a (Nat.le_refl a) (by omega)
      rw [hae] at hf
      simp only [Nat.add_sub_cancel] at hf
      rw [if_neg (by simp [hf]), if_neg (by simp [hae])]

/-- The step loop of `partialInsertionSort`: it permutes `[a,b)` and a
`true` verdict certifies the range sorted. -/
theorem pisGo_spec {less : α → α → Bool} (hswo : IsSWO less) (a b : Nat) :
    ∀ (steps i : Nat) (st : Data α),
    a + 1 ≤ i → i ≤ b →
    (∀ m, a < m → m < i → less (st.get m) (st.get (m - 1)) = false) →
    (1 ≤ a → ∀ m, a ≤ m → m < b → less (st.get m) (st.get (a - 1)) = false) →
    ∀ (st4 : Data α) (done : Bool), pisGo less a b steps i st = (st4, done) →
    PermWithin a b st st4 ∧ (done = true → sortedRange less st4 a b) := by
  intro steps
  induction steps with
  | zero =>
    intro i st hai hib hpairs hbnd st4 done heq
    simp only [pisGo, Prod.mk.injEq] at heq
    obtain ⟨h1, h2⟩ := heq
    subst h1
    exact ⟨permWithin_refl _ _ _, fun hd => Bool.noConfusion (h2.trans hd)⟩
  | succ steps ih =>
    intro i st hai hib hpairs hbnd st4 done heq
    obtain ⟨hS1, hS2, hS3, hS4⟩ :=
      @pisScan_spec α less b st (b - i) i (Nat.le_refl _) hib
    simp only [pisGo] at heq
    set i1 := pisScan less b st (b - i) i with hi1
    clear_value i1
    split at heq
    · rename_i hi1b
      simp only [Prod.mk.injEq] at heq
      obtain ⟨h1, h2⟩ := heq
      subst h1
      refine ⟨permWithin_refl _ _ _, fun hd => ?_⟩
      refine pairs_to_sortedRange hswo st a b (fun m hm1 hm2 => ?_)
      by_cases hmi : m < i
      · exact hpairs m hm1 hmi
      · exact hS3 m (by omega) (by omega)
    · rename_i hi1b
      split at heq
      · simp only [Prod.mk.injEq] at heq
        obtain ⟨h1, h2⟩ := heq
        subst h1
        exact ⟨permWithin_refl _ _ _, fun hd => Bool.noConfusion (h2.trans hd)⟩
      · rename_i h50
        have hi1lt : i1 < b := by omega
        have hA_perm : PermWithin a b st (swapF i1 (i1 - 1) st) :=
          permWithin_swapF st ⟨by omega, by omega⟩ ⟨by omega, by omega⟩
        have hA_pairs : ∀ m, a < m → m < i1 - 1 →
            less ((swapF i1 (i1 - 1) st).get m)
              ((swapF i1 (i1 - 1) st).get (m - 1)) = false := by
          intro m hm1 hm2
          rw [swapF_get, swapF_get, swapIdx_other _ _ _ (by omega) (by omega),
            swapIdx_other _ _ _ (by omega) (by omega)]
          by_cases hmi : m < i
          · exact hpairs m hm1 hmi
          · exact hS3 m (by omega) (by omega)
        have hA_geta : 1 ≤ a →
            (swapF i1 (i1 - 1) st).get (a - 1) = st.get (a - 1) := by
          intro ha1
          rw [swapF_get, swapIdx_other _ _ _ (by omega) (by omega)]
        have hA_bnd : 1 ≤ a → ∀ m, a ≤ m → m < b →
            less ((swapF i1 (i1 - 1) st).get m)
              ((swapF i1 (i1 - 1) st).get (a - 1)) = false := by
          intro ha1 m hm1 hm2
          rw [hA_geta ha1]
          exact permWithin_pointwise
            (P := fun v => less v (st.get (a - 1)) = false) hA_perm
            (fun k hk1 hk2 => hbnd ha1 k hk1 hk2) m hm1 hm2
        set stA := swapF i1 (i1 - 1) st with hstA
        clear_value stA
        have hsw2 : i1 - a ≥ 2 →
            insInner less 0 (i1 - 1) stA = insInner less a (i1 - 1) stA := by
          intro hc2
          by_cases ha0 : a = 0
          · subst ha0; rfl
          · exact insInner_floor_switch a (by omega) (i1 - 1) stA (by omega)
              (fun m hm1 hm2 => hA_bnd (by omega) m hm1 (by omega))
        have hB_perm : PermWithin a b stA
            (if i1 - a ≥ 2 then insInner less 0 (i1 - 1) stA else stA) := by
          split
          · rename_i hc2
            rw [hsw2 hc2]
            exact permWithin_mono (Nat.le_refl a) (by omega)
              (insInner_permWithin a (i1 - 1) stA)
          · exact permWithin_refl _ _ _
        have hB_pairs : ∀ m, a < m → m < i1 →
            less ((if i1 - a ≥ 2 then insInner less 0 (i1 - 1) stA else stA).get m)
              ((if i1 - a ≥ 2 then insInner less 0 (i1 - 1) stA else stA).get (m - 1))
              = false := by
          intro m hm1 hm2
          split
          · rename_i hc2
            rw [hsw2 hc2]
            exact insInner_sorted hswo a (i1 - 1) stA hA_pairs m hm1 (by omega)
          · rename_i hc2
            omega
        set stB := (if i1 - a ≥ 2 then insInner less 0 (i1 - 1) stA else stA)
          with hstB
        clear_value stB
        have hC_perm : PermWithin a b stB
            (if b - i1 ≥ 2 then shiftRight less b (b - (i1 + 1)) (i1 + 1) stB
             else stB) := by
          split
          · exact permWithin_mono (by omega) (Nat.le_refl b)
              (shiftRight_permWithin b (b - (i1 + 1)) (i1 + 1) stB (by omega))
          · exact permWithin_refl _ _ _
        have hC_pairs : ∀ m, a < m → m < i1 →
            less ((if b - i1 ≥ 2 then shiftRight less b (b - (i1 + 1)) (i1 + 1) stB
                else stB).get m)
              ((if b - i1 ≥ 2 then shiftRight less b (b - (i1 + 1)) (i1 + 1) stB
                else stB).get (m - 1)) = false := by
          intro m hm1 hm2
          have e1 : (if b - i1 ≥ 2 then
              shiftRight less b (b - (i1 + 1)) (i1 + 1) stB else stB).get m =
              stB.get m := by
            split
            · exact permWithin_outside
                (shiftRight_permWithin b (b - (i1 + 1)) (i1 + 1) stB (by omega))
                (Or.inl (by omega))
            · rfl
          have e2 : (if b - i1 ≥ 2 then
              shiftRight less b (b - (i1 + 1)) (i1 + 1) stB else stB).get (m - 1) =
              stB.get (m - 1) := by
            split
            · exact permWithin_outside
                (shiftRight_permWithin b (b - (i1 + 1)) (i1 + 1) stB (by omega))
                (Or.inl (by omega))
            · rfl
          rw [e1, e2]
          exact hB_pairs m hm1 hm2
        set stC := (if b - i1 ≥ 2 then
          shiftRight less b (b - (i1 + 1)) (i1 + 1) stB else stB) with hstC
        clear_value stC
        have htot : PermWithin a b st stC :=
          permWithin_trans hA_perm (permWithin_trans hB_perm hC_perm)
        have hC_bnd : 1 ≤ a → ∀ m, a ≤ m → m < b →
            less (stC.get m) (stC.get (a - 1)) = false := by
          intro ha1 m hm1 hm2
          have egeta : stC.get (a - 1) = st.get (a - 1) :=
            permWithin_outside htot (Or.inl (by omega))
          rw [egeta]
          exact permWithin_pointwise
            (P := fun v => less v (st.get (a - 1)) = false) htot
            (fun k hk1 hk2 => hbnd ha1 k hk1 hk2) m hm1 hm2
        obtain ⟨I1, I2⟩ := ih i1 stC (by omega) (by omega) hC_pairs hC_bnd
          st4 done heq
        exact ⟨permWithin_trans htot I1, I2⟩

/-- `partialInsertionSort(data, a, b)` permutes `[a,b)`; a `true` verdict
certifies the range sorted. The left-boundary invariant of `pdqsort`
(`data[a-1]` not above anything in `[a,b)` when `a > 0`) keeps the
floor-`0` inner loop inside the range. -/
theorem partInsertionSort_spec {less : α → α → Bool} (hswo : IsSWO less)
    (a b : Nat) (st : Data α) (hab : a + 1 ≤ b)
    (hbnd : 1 ≤ a → ∀ m, a ≤ m → m < b →
      less (st.get m) (st.get (a - 1)) = false) :
    ∀ (st4 : Data α) (done : Bool), partInsertionSort less a b st = (st4, done) →
    PermWithin a b st st4 ∧ (done = true → sortedRange less st4 a b) := by
  intro st4 done heq
  exact pisGo_spec hswo a b 5 (a + 1) st (Nat.le_refl _) hab
    (fun m hm1 hm2 => by omega) hbnd st4 done heq

/-! ### Pattern breaking, reversal and pivot choice -/

/-- `reverseRange` permutes only `[lo, hi)` when started inside it. -/
theorem reverseRangeF_permWithin (lo hi : Nat) :
    ∀ (fuel i j : Nat) (st : Data α), lo ≤ i → j < hi →
    PermWithin lo hi st (reverseRangeF fuel i j st) := by
  intro fuel
  induction fuel with
  | zero => intro i j st h1 h2; exact permWithin_refl _ _ _
  | succ f ih =>
    intro i j st h1 h2
    simp only [reverseRangeF]
    split
    · rename_i hij
      have hsw : PermWithin lo hi st (swapF i j st) :=
        permWithin_swapF st ⟨by omega, by omega⟩ ⟨by omega, by omega⟩
      exact permWithin_trans hsw (ih (i + 1) (j - 1) _ (by omega) (by omega))
    · exact permWithin_refl _ _ _

theorem two_pow_size_le (n : Nat) (hn : 1 ≤ n) : 2 ^ Nat.size n ≤ 2 * n := by
  have hpos : 0 < Nat.size n := Nat.size_pos.mpr hn
  have h1 : 2 ^ (Nat.size n - 1) ≤ n := Nat.lt_size.mp (by omega)
  have h2 : Nat.size n = (Nat.size n - 1) + 1 := by omega
  rw [h2, pow_succ]
  omega

/-- `breakPatterns` permutes only `[a, b)`: each of its three swaps picks
both positions inside the range. -/
theorem breakPatternsF_permWithin (a b : Nat) (st : Data α) :
    PermWithin a b st (breakPatternsF a b st) := by
  by_cases h8 : b - a ≥ 8
  · have hpick : ∀ r : Nat,
        (if r &&& (2 ^ Nat.size (b - a) - 1) ≥ b - a
         then (r &&& (2 ^ Nat.size (b - a) - 1)) - (b - a)
         else r &&& (2 ^ Nat.size (b - a) - 1)) < b - a := by
      intro r
      have hand : r &&& (2 ^ Nat.size (b - a) - 1) ≤ 2 ^ Nat.size (b - a) - 1 :=
        Nat.and_le_right
      have hsz : 2 ^ Nat.size (b - a) ≤ 2 * (b - a) := two_pow_size_le _ (by omega)
      split <;> omega
    have hp1 := hpick (xorshiftNext (b - a))
    have hp2 := hpick (xorshiftNext (xorshiftNext (b - a)))
    have hp3 := hpick (xorshiftNext (xorshiftNext (xorshiftNext (b - a))))
    simp only [breakPatternsF]
    rw [if_pos h8]
    refine permWithin_trans
      (permWithin_swapF st ⟨?_, ?_⟩ ⟨?_, ?_⟩) (permWithin_trans
      (permWithin_swapF _ ⟨?_, ?_⟩ ⟨?_, ?_⟩)
      (permWithin_swapF _ ⟨?_, ?_⟩ ⟨?_, ?_⟩)) <;> omega
  · simp only [breakPatternsF]
    rw [if_neg h8]
    exact permWithin_refl _ _ _

theorem order2_fst (less : α → α → Bool) (st : Data α) (x y s : Nat) :
    (order2 less st x y s).1 = x ∨ (order2 less st x y s).1 = y := by
  unfold order2
  split
  · exact Or.inr rfl
  · exact Or.inl rfl

theorem order2_snd (less : α → α → Bool) (st : Data α) (x y s : Nat) :
    (order2 less st x y s).2.1 = x ∨ (order2 less st x y s).2.1 = y := by
  unfold order2
  split
  · exact Or.inl rfl
  · exact Or.inr rfl

/-- `median` returns one of its three candidate positions. -/
theorem median3_mem (less : α → α → Bool) (st : Data α) (x y z s : Nat) :
    (median3 less st x y z s).1 = x ∨ (median3 less st x y z s).1 = y ∨
    (median3 less st x y z s).1 = z := by
  have e1 := order2_fst less st x y s
  have e2 := order2_snd less st x y s
  simp only [median3]
  rcases h1 : order2 less st x y s with ⟨a1, b1, s1⟩
  rw [h1] at e1 e2
  simp only [] at e1 e2
  have e3 := order2_fst less st b1 z s1
  rcases h2 : order2 less st b1 z s1 with ⟨b2, c2, s2⟩
  rw [h2] at e3
  simp only [] at e3
  have e4 := order2_snd less st a1 b2 s2
  rcases h3 : order2 less st a1 b2 s2 with ⟨a3, b3, s3⟩
  rw [h3] at e4
  simp only [] at e4
  simp only [h1, h2, h3]
  omega

/-- `medianAdjacent` returns one of the three adjacent positions. -/
theorem medianAdjacent_mem (less : α → α → Bool) (st : Data α) (x s : Nat) :
    (medianAdjacent less st x s).1 = x - 1 ∨ (medianAdjacent less st x s).1 = x ∨
    (medianAdjacent less st x s).1 = x + 1 :=
  median3_mem less st (x - 1) x (x + 1) s

/-- `choosePivot` returns a position inside `[a, b)` on ranges of length at
least 8. -/
theorem choosePivotF_mem {less : α → α → Bool} (st : Data α) (a b : Nat)
    (h8 : 8 ≤ b - a) :
    a ≤ (choosePivotF less st a b).1 ∧ (choosePivotF less st a b).1 < b := by
  simp only [choosePivotF]
  rw [if_pos h8]
  by_cases h50 : b - a ≥ 50
  · rw [if_pos h50]
    have eA := medianAdjacent_mem less st (a + (b - a) / 4 * 1) 0
    rcases hA : medianAdjacent less st (a + (b - a) / 4 * 1) 0 with ⟨i1, si⟩
    rw [hA] at eA
    simp only [] at eA
    have eB := medianAdjacent_mem less st (a + (b - a) / 4 * 2) si
    rcases hB : medianAdjacent less st (a + (b - a) / 4 * 2) si with ⟨j1, sj⟩
    rw [hB] at eB
    simp only [] at eB
    have eC := medianAdjacent_mem less st (a + (b - a) / 4 * 3) sj
    rcases hC : medianAdjacent less st (a + (b - a) / 4 * 3) sj with ⟨k1, sk⟩
    rw [hC] at eC
    simp only [] at eC
    simp only [hA, hB, hC]
    have eM := median3_mem less st i1 j1 k1 sk
    rcases hM : median3 less st i1 j1 k1 sk with ⟨j2, s2⟩
    rw [hM] at eM
    simp only [] at eM
    simp only [hM]
    omega
  · rw [if_neg h50]
    have eM := median3_mem less st (a + (b - a) / 4 * 1) (a + (b - a) / 4 * 2)
      (a + (b - a) / 4 * 3) 0
    rcases hM : median3 less st (a + (b - a) / 4 * 1) (a + (b - a) / 4 * 2)
      (a + (b - a) / 4 * 3) 0 with ⟨j2, s2⟩
    rw [hM] at eM
    simp only [] at eM
    simp only [hM]
    omega

set_option maxHeartbeats 1600000 in
/-- `pdqsort` master theorem: with fuel at least the range length and the
left-boundary invariant (`data[a-1]` below everything in `[a,b)` when
`a > 0`), the result permutes `[a,b)` and is sorted on it. -/
theorem pdqRec_spec {less : α → α → Bool} (hswo : IsSWO less) :
    ∀ (fuel : Nat) (st : Data α) (a b limit : Nat) (wb wp : Bool),
    b - a ≤ fuel →
    (1 ≤ a → ∀ k, a ≤ k → k < b → less (st.get k) (st.get (a - 1)) = false) →
    PermWithin a b st (pdqRec less fuel st a b limit wb wp) ∧
    sortedRange less (pdqRec less fuel st a b limit wb wp) a b := by
  intro fuel
  induction fuel with
  | zero =>
    intro st a b limit wb wp hfuel hbnd
    exact ⟨permWithin_refl _ _ _,
      fun i j hai hij hjb => absurd hjb (by omega)⟩
  | succ fuel ih =>
    intro st a b limit wb wp hfuel hbnd
    simp only [pdqRec]
    split
    · exact insertionSortF_spec hswo a b st
    · rename_i h12
      split
      · rename_i hlim
        exact heapSortF_spec hswo a b st (by omega)
      · rename_i hlim
        set L1 := (if !wb then limit - 1 else limit) with hL1
        clear_value L1
        set stL := (if !wb then breakPatternsF a b st else st) with hstL
        have hLperm : PermWithin a b st stL := by
          rw [hstL]
          split
          · exact breakPatternsF_permWithin a b st
          · exact permWithin_refl _ _ _
        clear_value stL
        have hcp := @choosePivotF_mem α less stL a b (by omega)
        rcases hcpE : choosePivotF less stL a b with ⟨pivot0, hint0⟩
        rw [hcpE] at hcp
        have hcp1 : a ≤ pivot0 := hcp.1
        have hcp2 : pivot0 < b := hcp.2
        simp only [hcpE]
        set st1 := (if hint0 = SortHint.decreasing then
          reverseRangeF (b - 1 - a) a (b - 1) stL else stL) with hst1
        have h1perm : PermWithin a b stL st1 := by
          rw [hst1]
          split
          · exact reverseRangeF_permWithin a b (b - 1 - a) a (b - 1) stL
              (Nat.le_refl a) (by omega)
          · exact permWithin_refl _ _ _
        clear_value st1
        set pivot := (if hint0 = SortHint.decreasing then b - 1 - (pivot0 - a)
          else pivot0) with hpiv
        have hpbound : a ≤ pivot ∧ pivot < b := by
          rw [hpiv]
          split
          · omega
          · omega
        clear_value pivot
        have hperm01 : PermWithin a b st st1 := permWithin_trans hLperm h1perm
        have hbnd1 : 1 ≤ a → ∀ m, a ≤ m → m < b →
            less (st1.get m) (st1.get (a - 1)) = false := by
          intro ha1 m hm1 hm2
          have e := permWithin_outside hperm01 (Or.inl (show a - 1 < a by omega))
          rw [e]
          exact permWithin_pointwise
            (P := fun v => less v (st.get (a - 1)) = false) hperm01
            (fun k hk1 hk2 => hbnd ha1 k hk1 hk2) m hm1 hm2
        have hst2 : ∃ (st2 : Data α) (sd : Bool),
            (if (wb && wp && decide ((if hint0 = SortHint.decreasing then
                SortHint.increasing else hint0) = SortHint.increasing)) = true
             then partInsertionSort less a b st1 else (st1, false)) = (st2, sd) ∧
            PermWithin a b st1 st2 ∧ (sd = true → sortedRange less st2 a b) := by
          by_cases hC : (wb && wp && decide ((if hint0 = SortHint.decreasing then
              SortHint.increasing else hint0) = SortHint.increasing)) = true
          · rw [if_pos hC]
            rcases hqq : partInsertionSort less a b st1 with ⟨s2, d2⟩
            obtain ⟨hp, hs⟩ := partInsertionSort_spec hswo a b st1 (by omega)
              hbnd1 s2 d2 hqq
            exact ⟨s2, d2, rfl, hp, hs⟩
          · rw [if_neg hC]
            exact ⟨st1, false, rfl, permWithin_refl _ _ _,
              fun h => Bool.noConfusion h⟩
        obtain ⟨st2, sd, hE2, hperm12, hSort2⟩ := hst2
        simp only [hE2]
        have hperm02 : PermWithin a b st st2 := permWithin_trans hperm01 hperm12
        have hbnd2 : 1 ≤ a → ∀ m, a ≤ m → m < b →
            less (st2.get m) (st2.get (a - 1)) = false := by
          intro ha1 m hm1 hm2
          have e := permWithin_outside hperm02 (Or.inl (show a - 1 < a by omega))
          rw [e]
          exact permWithin_pointwise
            (P := fun v => less v (st.get (a - 1)) = false) hperm02
            (fun k hk1 hk2 => hbnd ha1 k hk1 hk2) m hm1 hm2
        by_cases hsd : sd = true
        · rw [if_pos hsd]
          exact ⟨hperm02, hSort2 hsd⟩
        · rw [if_neg hsd]
          by_cases hEq : (a > 0 && !less (st2.get (a - 1)) (st2.get pivot)) = true
          · rw [if_pos hEq]
            simp only [Bool.and_eq_true, decide_eq_true_eq] at hEq
            have hEqF : less (st2.get (a - 1)) (st2.get pivot) = false := by
              cases hB : less (st2.get (a - 1)) (st2.get pivot) with
              | true =>
                rw [hB] at hEq
                exact absurd hEq.2 (by simp)
              | false => rfl
            rcases hq : partitionEqualF less a b pivot st2 with ⟨st3, mid⟩
            simp only [hq]
            obtain ⟨E1, E2, E3, Epv, E4, E5⟩ := partitionEqualF_spec a b pivot st2
              (by omega) hpbound.1 hpbound.2 st3 mid hq
            have hperm03 : PermWithin a b st st3 := permWithin_trans hperm02 E1
            have hleft1 : ∀ k, a ≤ k → k < mid →
                less (st3.get k) (st3.get a) = false := by
              intro k hk1 hk2
              have hx : less (st3.get k) (st2.get (a - 1)) = false :=
                permWithin_pointwise
                  (P := fun v => less v (st2.get (a - 1)) = false) E1
                  (fun m hm1 hm2 => hbnd2 (by omega) m hm1 hm2) k hk1 (by omega)
              rw [Epv]
              exact hswo.2.1 _ _ _ hx hEqF
            have hleft2 : ∀ k, a ≤ k → k < mid →
                less (st3.get a) (st3.get k) = false := by
              intro k hk1 hk2
              by_cases hka : k = a
              · rw [hka]
                exact hswo.irrefl _
              · exact E4 k (by omega) hk2
            have hbndmid : 1 ≤ mid → ∀ k, mid ≤ k → k < b →
                less (st3.get k) (st3.get (mid - 1)) = false := by
              intro h1 k hk1 hk2
              have hkpv : less (st3.get k) (st3.get a) = false :=
                hswo.2.2 _ _ (E5 k hk1 hk2)
              exact hswo.2.1 _ _ _ hkpv (hleft2 (mid - 1) (by omega) (by omega))
            obtain ⟨I1, I2⟩ := ih st3 mid b L1 wb wp (by omega) hbndmid
            constructor
            · exact permWithin_trans hperm03
                (permWithin_mono (by omega) (Nat.le_refl b) I1)
            · intro i j hai hij hjb
              have hres_low : ∀ k, k < mid →
                  (pdqRec less fuel st3 mid b L1 wb wp).get k = st3.get k :=
                fun k hk => permWithin_outside I1 (Or.inl hk)
              have hres_high : ∀ k, mid ≤ k → k < b →
                  less ((pdqRec less fuel st3 mid b L1 wb wp).get k)
                    (st3.get a) = false := by
                intro k hk1 hk2
                exact permWithin_pointwise
                  (P := fun v => less v (st3.get a) = false) I1
                  (fun m hm1 hm2 => hswo.2.2 _ _ (E5 m hm1 hm2)) k hk1 hk2
              by_cases hjm : j < mid
              · rw [hres_low i (by omega), hres_low j hjm]
                exact hswo.2.1 _ _ _ (hleft1 j (by omega) hjm)
                  (hleft2 i hai (by omega))
              · by_cases him : i < mid
                · rw [hres_low i him]
                  exact hswo.2.1 _ _ _ (hres_high j (by omega) hjb)
                    (hleft2 i hai him)
                · exact I2 i j (by omega) hij hjb
          · rw [if_neg hEq]
            rcases hq : partitionF less a b pivot st2 with ⟨st3, mid, alP⟩
            simp only [hq]
            obtain ⟨F1, F2, F3, F4, F5⟩ := partitionF_spec a b pivot st2
              (by omega) hpbound.1 hpbound.2 st3 mid alP hq
            have hperm03 : PermWithin a b st st3 := permWithin_trans hperm02 F1
            have hbnd3 : 1 ≤ a → ∀ m, a ≤ m → m < b →
                less (st3.get m) (st3.get (a - 1)) = false := by
              intro ha1 m hm1 hm2
              have e := permWithin_outside hperm03
                (Or.inl (show a - 1 < a by omega))
              rw [e]
              exact permWithin_pointwise
                (P := fun v => less v (st.get (a - 1)) = false) hperm03
                (fun k hk1 hk2 => hbnd ha1 k hk1 hk2) m hm1 hm2
            split
            · rename_i hlr
              obtain ⟨J1, J2⟩ := ih st3 a mid L1 true true (by omega)
                (fun ha1 k hk1 hk2 => hbnd3 ha1 k hk1 (by omega))
              set st4 := pdqRec less fuel st3 a mid L1 true true with hst4
              have hset4 : ∀ k, mid ≤ k → st4.get k = st3.get k :=
                fun k hk => permWithin_outside J1 (Or.inr hk)
              obtain ⟨K1, K2⟩ := ih st4 (mid + 1) b L1
                (decide (min (mid - a) (b - mid) ≥ (b - a) / 8)) alP (by omega)
                (fun h1 k hk1 hk2 => by
                  simp only [Nat.add_sub_cancel]
                  rw [hset4 k (by omega), hset4 mid (Nat.le_refl _)]
                  exact F5 k (by omega) hk2)
              set st5 := pdqRec less fuel st4 (mid + 1) b L1
                (decide (min (mid - a) (b - mid) ≥ (b - a) / 8)) alP with hst5
              clear_value st4 st5
              have hres_low : ∀ k, k ≤ mid → st5.get k = st4.get k :=
                fun k hk => permWithin_outside K1 (Or.inl (by omega))
              have hmidv : st5.get mid = st3.get mid := by
                rw [hres_low mid (Nat.le_refl _), hset4 mid (Nat.le_refl _)]
              have hlt4 : ∀ k, a ≤ k → k < mid →
                  less (st4.get k) (st3.get mid) = true :=
                fun k hk1 hk2 => permWithin_pointwise
                  (P := fun v => less v (st3.get mid) = true) J1
                  (fun m hm1 hm2 => F4 m hm1 hm2) k hk1 hk2
              have hgt5 : ∀ k, mid + 1 ≤ k → k < b →
                  less (st5.get k) (st3.get mid) = false :=
                fun k hk1 hk2 => permWithin_pointwise
                  (P := fun v => less v (st3.get mid) = false) K1
                  (fun m hm1 hm2 => by
                    rw [hset4 m (by omega)]
                    exact F5 m (by omega) hm2) k hk1 hk2
              constructor
              · exact permWithin_trans hperm03 (permWithin_trans
                  (permWithin_mono (by omega) (by omega) J1)
                  (permWithin_mono (by omega) (by omega) K1))
              · intro i j hai hij hjb
                by_cases hjm : j < mid
                · rw [hres_low i (by omega), hres_low j (by omega)]
                  exact J2 i j hai hij hjm
                · by_cases hje : j = mid
                  · rw [hje, hmidv, hres_low i (by omega)]
                    exact hswo.2.2 _ _ (hlt4 i hai (by omega))
                  · by_cases him : i < mid
                    · rw [hres_low i (by omega)]
                      exact hswo.2.1 _ _ _ (hgt5 j (by omega) hjb)
                        (hswo.2.2 _ _ (hlt4 i hai him))
                    · by_cases hie : i = mid
                      · rw [hie, hmidv]
                        exact hgt5 j (by omega) hjb
                      · exact K2 i j (by omega) hij hjb
            · rename_i hlr
              obtain ⟨J1, J2⟩ := ih st3 (mid + 1) b L1 true true (by omega)
                (fun h1 k hk1 hk2 => by
                  simp only [Nat.add_sub_cancel]
                  exact F5 k (by omega) hk2)
              set st4 := pdqRec less fuel st3 (mid + 1) b L1 true true with hst4
              have hset4 : ∀ k, k ≤ mid → st4.get k = st3.get k :=
                fun k hk => permWithin_outside J1 (Or.inl (by omega))
              obtain ⟨K1, K2⟩ := ih st4 a mid L1
                (decide (min (mid - a) (b - mid) ≥ (b - a) / 8)) alP (by omega)
                (fun ha1 k hk1 hk2 => by
                  rw [hset4 k (by omega), hset4 (a - 1) (by omega)]
                  exact hbnd3 ha1 k hk1 (by omega))
              set st5 := pdqRec less fuel st4 a mid L1
                (decide (min (mid - a) (b - mid) ≥ (b - a) / 8)) alP with hst5
              clear_value st4 st5
              have hres_high : ∀ k, mid ≤ k → st5.get k = st4.get k :=
                fun k hk => permWithin_outside K1 (Or.inr hk)
              have hmidv : st5.get mid = st3.get mid := by
                rw [hres_high mid (Nat.le_refl _), hset4 mid (Nat.le_refl _)]
              have hlt4 : ∀ k, a ≤ k → k < mid →
                  less (st5.get k) (st3.get mid) = true :=
                fun k hk1 hk2 => permWithin_pointwise
                  (P := fun v => less v (st3.get mid) = true) K1
                  (fun m hm1 hm2 => by
                    rw [hset4 m (by omega)]
                    exact F4 m hm1 hm2) k hk1 hk2
              have hgt5 : ∀ k, mid + 1 ≤ k → k < b →
                  less (st4.get k) (st3.get mid) = false :=
                fun k hk1 hk2 => permWithin_pointwise
                  (P := fun v => less v (st3.get mid) = false) J1
                  (fun m hm1 hm2 => F5 m (by omega) hm2) k hk1 hk2
              constructor
              · exact permWithin_trans hperm03 (permWithin_trans
                  (permWithin_mono (by omega) (by omega) J1)
                  (permWithin_mono (by omega) (by omega) K1))
              · intro i j hai hij hjb
                by_cases hjm : j < mid
                · exact K2 i j hai hij hjm
                · by_cases hje : j = mid
                  · rw [hje, hmidv]
                    exact hswo.2.2 _ _ (hlt4 i hai (by omega))
                  · rw [hres_high j (by omega)]
                    by_cases him : i < mid
                    · exact hswo.2.1 _ _ _ (hgt5 j (by omega) hjb)
                        (hswo.2.2 _ _ (hlt4 i hai him))
                    · by_cases hie : i = mid
                      · rw [hie, hmidv]
                        exact hgt5 j (by omega) hjb
                      · rw [hres_high i (by omega)]
                        exact J2 i j (by omega) hij hjb

theorem map_getD_range [Inhabited α] (l : List α) :
    (List.range l.length).map (fun k => l.getD k default) = l := by
  apply List.ext_getElem
  · simp
  · intro i h1 h2
    rw [List.getElem_map, List.getElem_range, List.getD_eq_getElem?_getD,
      List.getElem?_eq_getElem h2]
    rfl

/-- Go `sort.Sort` (pdqsort): the output is a sorted permutation of the
input list. -/
theorem sortGo_sorts [Inhabited α] {less : α → α → Bool} (hswo : IsSWO less)
    (l : List α) :
    List.Perm (sortGo less l) l ∧
    List.Pairwise (fun x y => less y x = false) (sortGo less l) := by
  by_cases hlen : l.length ≤ 1
  · have he : sortGo less l = l := by
      simp only [sortGo]
      rw [if_pos hlen]
    rw [he]
    refine ⟨List.Perm.refl l, ?_⟩
    rcases l with _ | ⟨x, _ | ⟨y, t⟩⟩
    · exact List.Pairwise.nil
    · simp
    · simp at hlen
  · have he : sortGo less l = (List.range l.length).map
        (pdqRec less (l.length + 1) ⟨fun k => l.getD k default⟩ 0 l.length
          (bitsLen l.length) true true).get := by
      simp only [sortGo]
      rw [if_neg hlen]
    obtain ⟨P1, P2⟩ := pdqRec_spec hswo (l.length + 1)
      ⟨fun k => l.getD k default⟩ 0 l.length (bitsLen l.length) true true
      (by omega) (fun h1 => absurd h1 (by omega))
    have h2 : (List.range l.length).map
        (pdqRec less (l.length + 1) ⟨fun k => l.getD k default⟩ 0 l.length
          (bitsLen l.length) true true).get =
        rangeList (pdqRec less (l.length + 1) ⟨fun k => l.getD k default⟩ 0
          l.length (bitsLen l.length) true true) 0 l.length := by
      unfold rangeList
      rw [List.range_eq_range', Nat.sub_zero]
    have h4 : rangeList (⟨fun k => l.getD k default⟩ : Data α) 0 l.length = l := by
      unfold rangeList
      rw [Nat.sub_zero, ← List.range_eq_range']
      exact map_getD_range l
    constructor
    · rw [he, h2]
      have h3 := permWithin_rangeList P1
      have h5 : List.Perm
          (rangeList (⟨fun k => l.getD k default⟩ : Data α) 0 l.length) l := by
        rw [h4]
      exact h3.trans h5
    · rw [he, List.pairwise_iff_getElem]
      intro i j h1 h2 hij
      simp only [List.length_map, List.length_range] at h1 h2
      simp only [List.getElem_map, List.getElem_range]
      exact P2 i j (Nat.zero_le i) hij h2

/-- C7 (amended): for every list of surviving versions, the selector's
`sort.Sort(semver.Collection(versions))` (Go 1.19+ pdqsort) returns a
permutation of that list — no deduplication, every element keeps its
multiplicity — sorted ascending under the equal-precision comparison (no
later element is `LessThan` an earlier one). Stability is dropped from the
claim: the counterexample theorem exhibits equal-precision versions
("5" and "5.0") leaving in the opposite of their input order. -/
theorem claim_C7_amended (l : List SemVer) :
    List.Perm (sortGo semverLess l) l ∧
    List.Pairwise (fun x y => semverLess y x = false) (sortGo semverLess l) :=
  sortGo_sorts semverLess_isSWO l

end Mimikry
